import Mathlib

/-!
# opsfile: filesystem helper functions over a modelled host filesystem

The Go package `opsfile` is a set of thin wrappers around the primitives of the
Go standard library (`os`, `io`, `path/filepath`).  The wrappers are embedded
one to one; the primitives they call are modelled over an explicit filesystem
state with POSIX semantics.

Scope of the filesystem model:
* a path is a cleaned absolute path (the root, or a parent path and a name);
* entries are regular files and directories, there are no symbolic or hard links;
* the calling process is privileged: permission bits are stored and reported but
  never deny access;
* space is counted in blocks of 4096 bytes: a write that needs more blocks than
  are free writes the bytes that fit and fails with `ENOSPC`;
* closing a file reports the error that the state holds for it in `closeErr`
  (`none` when closing succeeds);
* a call that adds or removes an entry stamps the modification time of the
  directory holding it, a call that changes the content of a file stamps the
  modification time of the file;
* an open file denotes the file at the path it was opened with, which holds
  because no call renames or removes a file while it has it open;
* a Go function returning `error` becomes a function returning the new state
  and `Option GoError`, with `none` for the nil error;
* calls are sequential, nothing else changes the state during a call.
-/

namespace opsfile

/-! ## Paths -/

/-- A cleaned absolute path: the root, or a parent path followed by one name. -/
inductive PathName where
  | root : PathName
  | child (parent : PathName) (name : String) : PathName
  deriving DecidableEq

/-- Go `filepath.Dir`: the parent of a path; the root is its own parent. -/
def filepathDir : PathName → PathName
  | .root => .root
  | .child q _ => q

/-- Go `filepath.Join(dir, name)` for a single name. -/
def filepathJoin (dir : PathName) (name : String) : PathName :=
  .child dir name

/-- Number of names in a path. -/
def PathName.depth : PathName → Nat
  | .root => 0
  | .child q _ => q.depth + 1

/-- Test that `p` is `a` itself or lies in the subtree below `a`. -/
def PathName.isUnder (a : PathName) : PathName → Bool
  | .root => decide (a = .root)
  | .child q n => decide (a = .child q n) || isUnder a q

/-- Move a path of the subtree of `old` to the same relative place below `new`. -/
def PathName.rebase (old new : PathName) : PathName → PathName
  | .root => new
  | .child q n => if PathName.child q n = old then new else .child (rebase old new q) n

/-! ## Errors -/

/-- The Go `error` values that occur: errno codes, `os.ErrInvalid`, and the two
sentinels of `filepath.Walk`. -/
inductive GoError where
  | ENOENT | ENOTDIR | EISDIR | EEXIST | ENOTEMPTY | EINVAL | EBUSY | ENOSPC
  | EACCES | EPERM | EDQUOT | ErrInvalid | SkipDir | SkipAll
  deriving DecidableEq

/-- Go `os.IsNotExist`: true exactly for the not-exist error. -/
def osIsNotExist : GoError → Bool
  | .ENOENT => true
  | _ => false

/-! ## Filesystem state -/

/-- File content and Go strings: sequences of bytes. -/
abbrev Bytes := List (Fin 256)

/-- Metadata of an entry.  `mode` holds the twelve unix mode bits (permission
bits and setuid, setgid, sticky); the entry type is carried by `Node`. -/
structure Attr where
  mode : Nat
  uid : Nat
  gid : Nat
  mtime : Nat
  deriving DecidableEq

/-- An entry of the filesystem: a regular file with its content, or a directory. -/
inductive Node where
  | file (attr : Attr) (data : Bytes) : Node
  | dir (attr : Attr) : Node
  deriving DecidableEq

def Node.isDir : Node → Bool
  | .dir _ => true
  | .file _ _ => false

def Node.attr : Node → Attr
  | .dir a => a
  | .file a _ => a

def Node.setAttr (a : Attr) : Node → Node
  | .dir _ => .dir a
  | .file _ d => .file a d

/-- Forget the modification time of a directory. -/
def Node.forget : Node → Node
  | .dir a => .dir { a with mtime := 0 }
  | .file a d => .file a d

/-- The state of the host filesystem and of the calling process: the entry
table, the number of free blocks, the umask, the effective user and group, the
current time, the size that the filesystem reports for a directory, and the
error that closing a file reports. -/
structure FS where
  entries : List (PathName × Node)
  free : Nat
  umask : Nat
  euid : Nat
  egid : Nat
  clock : Nat
  dirSize : Nat
  closeErr : Option GoError
  deriving DecidableEq

/-- Size of an allocation block in bytes. -/
def blockSize : Nat := 4096

/-- Number of blocks that hold `n` bytes. -/
def blocksOf (n : Nat) : Nat := (n + (blockSize - 1)) / blockSize

/-- First binding of a path in the entry table. -/
def lookup (k : PathName) : List (PathName × Node) → Option Node
  | [] => none
  | e :: es => if e.1 = k then some e.2 else lookup k es

/-- Bind `k` to `v`, dropping any older binding of `k`. -/
def put (k : PathName) (v : Node) (es : List (PathName × Node)) : List (PathName × Node) :=
  (k, v) :: es.filter (fun e => decide (e.1 ≠ k))

/-- Drop `k` and everything recorded below it. -/
def purge (k : PathName) (es : List (PathName × Node)) : List (PathName × Node) :=
  es.filter (fun e => !(k.isUnder e.1))

/-- Metadata of the root directory when the table does not record it. -/
def rootAttr : Attr := ⟨0o755, 0, 0, 0⟩

/-- Path resolution: every proper ancestor must be a directory.  The root
always exists. -/
def resolve (fs : FS) : PathName → Except GoError Node
  | .root =>
    match lookup .root fs.entries with
    | some (.dir a) => .ok (.dir a)
    | _ => .ok (.dir rootAttr)
  | .child q n =>
    match resolve fs q with
    | .error e => .error e
    | .ok (.file _ _) => .error .ENOTDIR
    | .ok (.dir _) =>
      match lookup (.child q n) fs.entries with
      | some v => .ok v
      | none => .error .ENOENT

/-- Forget the modification time of a directory in the result of a resolution. -/
def forgetRes : Except GoError Node → Except GoError Node
  | .ok n => .ok n.forget
  | .error e => .error e

/-- The table `es` after the directory holding `name` got its modification time
stamped, as a system call that adds or removes the entry `name` does. -/
def touchParent (fs : FS) (name : PathName) (es : List (PathName × Node)) :
    List (PathName × Node) :=
  match resolve fs (filepathDir name) with
  | .ok (.dir b) => put (filepathDir name) (.dir { b with mtime := fs.clock }) es
  | _ => es

/-! ## Primitives of the Go standard library -/

/-- Go `os.ModeDir`, bit 31 of a `FileMode`. -/
def ModeDir : Nat := 2147483648

/-- Go `os.ModeSetuid`, bit 23 of a `FileMode`. -/
def ModeSetuid : Nat := 8388608

/-- Go `os.ModeSetgid`, bit 22 of a `FileMode`. -/
def ModeSetgid : Nat := 4194304

/-- Go `os.ModeSticky`, bit 20 of a `FileMode`. -/
def ModeSticky : Nat := 1048576

/-- The Go `FileMode` that `os.Stat` builds from the unix mode bits of an
entry: the nine permission bits, the flags for setuid, setgid and sticky, and
`ModeDir` for a directory.  The summands have no bit in common, so the sum is
their bitwise or. -/
def fileModeOf (unixMode : Nat) (isDir : Bool) : Nat :=
  unixMode % 512 + (if unixMode.testBit 11 then ModeSetuid else 0)
    + (if unixMode.testBit 10 then ModeSetgid else 0)
    + (if unixMode.testBit 9 then ModeSticky else 0)
    + (if isDir then ModeDir else 0)

/-- Go `syscallMode`: the unix mode bits that `os.Chmod` and `os.OpenFile` send
for a `FileMode`, its permission bits and its setuid, setgid and sticky flags. -/
def syscallMode (i : Nat) : Nat :=
  i % 512 + (if i.testBit 23 then 0o4000 else 0) + (if i.testBit 22 then 0o2000 else 0)
    + (if i.testBit 20 then 0o1000 else 0)

/-- Go `os.FileInfo` as returned by `os.Stat`; `mode` is a Go `FileMode` and
`sys` is the `*syscall.Stat_t` behind `Sys()`, holding the owner and the group. -/
structure FileStat where
  size : Nat
  mode : Nat
  modTime : Nat
  isDir : Bool
  sys : Option (Nat × Nat)
  deriving DecidableEq

/-- The file info of an entry; `dirSize` is the size reported for a directory. -/
def statOf (dirSize : Nat) : Node → FileStat
  | .file a d => ⟨d.length, fileModeOf a.mode false, a.mtime, false, some (a.uid, a.gid)⟩
  | .dir a => ⟨dirSize, fileModeOf a.mode true, a.mtime, true, some (a.uid, a.gid)⟩

/-- Go `os.Stat`. -/
def osStat (fs : FS) (path : PathName) : Except GoError FileStat :=
  match resolve fs path with
  | .error e => .error e
  | .ok n => .ok (statOf fs.dirSize n)

/-- Go `os.Lstat`; without symbolic links it agrees with `os.Stat`. -/
def osLstat (fs : FS) (path : PathName) : Except GoError FileStat :=
  osStat fs path

/-- Attributes of an entry created with the `FileMode` `perm` under the process
umask. -/
def newAttr (fs : FS) (perm : Nat) : Attr :=
  ⟨syscallMode perm - (syscallMode perm &&& fs.umask), fs.euid, fs.egid, fs.clock⟩

/-- An open file `*os.File`: the file it denotes and whether it was opened with
`O_APPEND`.  Every handle is written at most once, at position 0 unless it
appends. -/
structure File where
  path : PathName
  append : Bool
  deriving DecidableEq

/-- The flags of `os.OpenFile` that the package uses. -/
structure OpenFlags where
  write : Bool
  create : Bool
  trunc : Bool
  append : Bool

/-- Go `os.OpenFile`. -/
def osOpenFile (fs : FS) (name : PathName) (flag : OpenFlags) (perm : Nat) :
    FS × Except GoError File :=
  match resolve fs name with
  | .ok (.dir _) =>
    if flag.write then (fs, .error .EISDIR) else (fs, .ok ⟨name, flag.append⟩)
  | .ok (.file a d) =>
    if flag.write && flag.trunc then
      ({ fs with entries := put name (.file { a with mtime := fs.clock } []) fs.entries,
                 free := fs.free + blocksOf d.length }, .ok ⟨name, flag.append⟩)
    else (fs, .ok ⟨name, flag.append⟩)
  | .error .ENOENT =>
    if flag.create then
      match resolve fs (filepathDir name) with
      | .ok (.dir _) =>
        ({ fs with entries := put name (.file (newAttr fs perm) [])
                     (touchParent fs name (purge name fs.entries)) },
          .ok ⟨name, flag.append⟩)
      | _ => (fs, .error .ENOENT)
    else (fs, .error .ENOENT)
  | .error e => (fs, .error e)

/-- Go `os.Open`: `OpenFile(name, O_RDONLY, 0)`. -/
def osOpen (fs : FS) (name : PathName) : FS × Except GoError File :=
  osOpenFile fs name ⟨false, false, false, false⟩ 0

/-- Go `os.Create`: `OpenFile(name, O_RDWR|O_CREATE|O_TRUNC, 0666)`. -/
def osCreate (fs : FS) (name : PathName) : FS × Except GoError File :=
  osOpenFile fs name ⟨true, true, true, false⟩ 0o666

/-- Go `(*os.File).Write`: the bytes are written after the old content for an
appending handle, over it from position 0 otherwise.  The file can grow to the
end of the blocks it has and of the free blocks; the bytes that fit are written,
and when not all fit the error is `ENOSPC`. -/
def fileWrite (fs : FS) (f : File) (data : Bytes) : FS × Option GoError :=
  match lookup f.path fs.entries with
  | some (.file a old) =>
    let start := if f.append then old.length else 0
    let room := (blocksOf old.length + fs.free) * blockSize - start
    let w := min data.length room
    let new := if f.append then old ++ data.take w else data.take w ++ old.drop w
    let a1 := if 0 < w then { a with mtime := fs.clock } else a
    ({ fs with entries := put f.path (.file a1 new) fs.entries,
               free := fs.free - (blocksOf new.length - blocksOf old.length) },
      if w < data.length then some .ENOSPC else none)
  | _ => (fs, some .EISDIR)

/-- Go `(*os.File).WriteString`. -/
def fileWriteString (fs : FS) (f : File) (s : Bytes) : FS × Option GoError :=
  fileWrite fs f s

/-- Go `(*os.File).Close`: the state is left as it is and the error that the
state holds for closing is reported. -/
def fileClose (fs : FS) (_f : File) : FS × Option GoError :=
  (fs, fs.closeErr)

/-- Go `os.WriteFile`. -/
def osWriteFile (fs : FS) (name : PathName) (data : Bytes) (perm : Nat) : FS × Option GoError :=
  match osOpenFile fs name ⟨true, true, true, false⟩ perm with
  | (fs1, .error e) => (fs1, some e)
  | (fs1, .ok f) =>
    match fileWrite fs1 f data with
    | (fs2, err) =>
      match fileClose fs2 f with
      | (fs3, err1) => (fs3, if err1.isSome && err.isNone then err1 else err)

/-- Go `io.Copy(dst, src)`: read the source to its end and write it to `dst`. -/
def ioCopy (fs : FS) (dst src : File) : FS × Option GoError :=
  match lookup src.path fs.entries with
  | some (.file _ d) => fileWrite fs dst d
  | _ => (fs, some .EISDIR)

/-- Go `os.Truncate(name, 0)`; the modification time is stamped when the size
changes. -/
def osTruncate0 (fs : FS) (name : PathName) : FS × Option GoError :=
  match resolve fs name with
  | .error e => (fs, some e)
  | .ok (.dir _) => (fs, some .EISDIR)
  | .ok (.file a d) =>
    ({ fs with entries := put name
                 (.file { a with mtime := if d.isEmpty then a.mtime else fs.clock } []) fs.entries,
               free := fs.free + blocksOf d.length }, none)

/-- Names recorded directly below `dir`, each once. -/
def childNames (dir : PathName) (es : List (PathName × Node)) : List String :=
  (es.filterMap (fun e =>
    match e.1 with
    | .child q n => if q = dir then some n else none
    | .root => none)).dedup

/-- System call `unlink`. -/
def sysUnlink (fs : FS) (name : PathName) : FS × Option GoError :=
  match resolve fs name with
  | .error e => (fs, some e)
  | .ok (.dir _) => (fs, some .EISDIR)
  | .ok (.file _ d) =>
    ({ fs with entries := touchParent fs name (purge name fs.entries),
               free := fs.free + blocksOf d.length }, none)

/-- System call `rmdir`. -/
def sysRmdir (fs : FS) (name : PathName) : FS × Option GoError :=
  match resolve fs name with
  | .error e => (fs, some e)
  | .ok (.file _ _) => (fs, some .ENOTDIR)
  | .ok (.dir _) =>
    if name = .root then (fs, some .EBUSY)
    else if childNames name fs.entries ≠ [] then (fs, some .ENOTEMPTY)
    else ({ fs with entries := touchParent fs name (purge name fs.entries) }, none)

/-- Go `os.Remove`: try `unlink`, then `rmdir`, and pick the error to report. -/
def osRemove (fs : FS) (name : PathName) : FS × Option GoError :=
  match sysUnlink fs name with
  | (fs1, none) => (fs1, none)
  | (fs1, some e) =>
    match sysRmdir fs1 name with
    | (fs2, none) => (fs2, none)
    | (fs2, some e1) => (fs2, some (if e1 ≠ .ENOTDIR then e1 else e))

/-- System call `mkdir`. -/
def osMkdir (fs : FS) (name : PathName) (perm : Nat) : FS × Option GoError :=
  match resolve fs name with
  | .ok _ => (fs, some .EEXIST)
  | .error _ =>
    match resolve fs (filepathDir name) with
    | .error e => (fs, some e)
    | .ok (.file _ _) => (fs, some .ENOTDIR)
    | .ok (.dir _) =>
      ({ fs with entries := put name (.dir (newAttr fs perm))
                   (touchParent fs name (purge name fs.entries)) }, none)

/-- Go `os.MkdirAll`: stop when the path can be told to be a directory or a
file, otherwise make sure the parent exists and call `Mkdir`.  The root has no
parent to recurse into. -/
def osMkdirAll (fs : FS) : PathName → Nat → FS × Option GoError
  | .root, perm =>
    match osStat fs .root with
    | .ok dir => if dir.isDir then (fs, none) else (fs, some .ENOTDIR)
    | .error _ => osMkdir fs .root perm
  | .child parent n, perm =>
    match osStat fs (.child parent n) with
    | .ok dir => if dir.isDir then (fs, none) else (fs, some .ENOTDIR)
    | .error _ =>
      match osMkdirAll fs parent perm with
      | (fs1, some err) => (fs1, some err)
      | (fs1, none) =>
        match osMkdir fs1 (.child parent n) perm with
        | (fs2, none) => (fs2, none)
        | (fs2, some err) =>
          match osLstat fs2 (.child parent n) with
          | .ok dir => if dir.isDir then (fs2, none) else (fs2, some err)
          | .error _ => (fs2, some err)

/-- The entry table after moving the subtree of `old` to `new`. -/
def renameEntries (old new : PathName) (es : List (PathName × Node)) : List (PathName × Node) :=
  (es.filter (fun e => old.isUnder e.1)).map (fun e => (PathName.rebase old new e.1, e.2))
    ++ purge new (purge old es)

/-- The entry table after a rename: the subtree is moved and the directories
holding the old and the new name get their modification time stamped. -/
def renamed (fs : FS) (old new : PathName) : List (PathName × Node) :=
  touchParent fs old (touchParent fs new (renameEntries old new fs.entries))

/-- System call `rename`. -/
def sysRename (fs : FS) (oldname newname : PathName) : FS × Option GoError :=
  match resolve fs oldname with
  | .error e => (fs, some e)
  | .ok o =>
    match resolve fs (filepathDir newname) with
    | .error e => (fs, some e)
    | .ok (.file _ _) => (fs, some .ENOTDIR)
    | .ok (.dir _) =>
      if oldname = newname then (fs, none)
      else if oldname = .root ∨ newname = .root then (fs, some .EBUSY)
      else if o.isDir && oldname.isUnder newname then (fs, some .EINVAL)
      else
        match o, resolve fs newname with
        | .dir _, .ok (.file _ _) => (fs, some .ENOTDIR)
        | .file _ _, .ok (.dir _) => (fs, some .EISDIR)
        | .dir _, .ok (.dir _) =>
          if childNames newname fs.entries ≠ [] then (fs, some .ENOTEMPTY)
          else ({ fs with entries := renamed fs oldname newname }, none)
        | .file _ _, .ok (.file _ d) =>
          ({ fs with entries := renamed fs oldname newname,
                     free := fs.free + blocksOf d.length }, none)
        | _, .error _ =>
          ({ fs with entries := renamed fs oldname newname }, none)

/-- Go `os.Rename`: refuse an existing directory as the new name, then call
`rename`. -/
def osRename (fs : FS) (oldname newname : PathName) : FS × Option GoError :=
  match osLstat fs newname with
  | .ok fi =>
    if fi.isDir then
      match osLstat fs oldname with
      | .error err => (fs, some err)
      | .ok _ => (fs, some .EEXIST)
    else sysRename fs oldname newname
  | .error _ => sysRename fs oldname newname

/-- Go `os.Chmod`: the system call gets `syscallMode` of the `FileMode`. -/
def osChmod (fs : FS) (name : PathName) (mode : Nat) : FS × Option GoError :=
  match resolve fs name with
  | .error e => (fs, some e)
  | .ok n =>
    ({ fs with entries := put name (n.setAttr { n.attr with mode := syscallMode mode })
                 fs.entries },
      none)

/-- The id that `chown` stores for the argument `id`: the argument is cut to 32
bits, and the value 4294967295, which is what -1 gives, leaves the id `old` as
it is. -/
def chownId (old : Nat) (id : Int) : Nat :=
  if (id % 4294967296).toNat = 4294967295 then old else (id % 4294967296).toNat

/-- Go `os.Chown`. -/
def osChown (fs : FS) (name : PathName) (uid gid : Int) : FS × Option GoError :=
  match resolve fs name with
  | .error e => (fs, some e)
  | .ok n =>
    ({ fs with entries := put name
                 (n.setAttr { n.attr with uid := chownId n.attr.uid uid,
                                          gid := chownId n.attr.gid gid }) fs.entries },
      none)

/-- Go `os.DirEntry`. -/
structure DirEntry where
  name : String
  isDir : Bool
  deriving DecidableEq

/-- Names in a directory in the order of `sort.Strings`: byte by byte, which for
UTF-8 is character by character. -/
def sortedNames (dir : PathName) (es : List (PathName × Node)) : List String :=
  (childNames dir es).insertionSort (fun a b => a.toList ≤ b.toList)

/-- Go `os.ReadDir`: the entries of a directory sorted by file name. -/
def osReadDir (fs : FS) (dir : PathName) : List DirEntry × Option GoError :=
  match resolve fs dir with
  | .error e => ([], some e)
  | .ok (.file _ _) => ([], some .ENOTDIR)
  | .ok (.dir _) =>
    ((sortedNames dir fs.entries).map (fun n =>
      ⟨n, match lookup (.child dir n) fs.entries with
          | some v => v.isDir
          | none => false⟩), none)

/-- Go `readDirNames` of `path/filepath`: the sorted names in a directory. -/
def readDirNames (fs : FS) (dirname : PathName) : List String × Option GoError :=
  match resolve fs dirname with
  | .error e => ([], some e)
  | .ok (.file _ _) => ([], some .ENOTDIR)
  | .ok (.dir _) => (sortedNames dirname fs.entries, none)

/-- Largest depth of a recorded path. -/
def maxDepth : List (PathName × Node) → Nat
  | [] => 0
  | e :: es => max e.1.depth (maxDepth es)

/-- The loop of Go `filepath.walk` over the names of a directory; `recur` is the
recursive call of `walk`. -/
def walkNames {σ : Type} (fn : σ → PathName → Option FileStat → Option GoError → σ × Option GoError)
    (recur : σ → PathName → FileStat → Option (σ × Option GoError))
    (fs : FS) (path : PathName) : List String → σ → Option (σ × Option GoError)
  | [], s => some (s, none)
  | name :: rest, s =>
    let filename := filepathJoin path name
    match osLstat fs filename with
    | .error err =>
      match fn s filename none (some err) with
      | (s1, some err1) =>
        if err1 ≠ .SkipDir then some (s1, some err1) else walkNames fn recur fs path rest s1
      | (s1, none) => walkNames fn recur fs path rest s1
    | .ok fileInfo =>
      match recur s filename fileInfo with
      | none => none
      | some (s1, some err) =>
        if !fileInfo.isDir || err ≠ .SkipDir then some (s1, some err)
        else walkNames fn recur fs path rest s1
      | some (s1, none) => walkNames fn recur fs path rest s1

/-- Go `filepath.walk`, the recursive descent behind `filepath.Walk`.  The first
argument bounds the recursion depth; `none` reports that the bound was reached. -/
def walk {σ : Type} (fn : σ → PathName → Option FileStat → Option GoError → σ × Option GoError)
    (fs : FS) : Nat → σ → PathName → FileStat → Option (σ × Option GoError)
  | 0, _, _, _ => none
  | fuel + 1, s, path, info =>
    if !info.isDir then some (fn s path (some info) none)
    else
      match readDirNames fs path with
      | (names, err) =>
        match fn s path (some info) err with
        | (s1, err1) =>
          if err.isSome || err1.isSome then some (s1, err1)
          else walkNames fn (fun s2 p i => walk fn fs fuel s2 p i) fs path names s1

/-- Go `filepath.Walk`. -/
def filepathWalk {σ : Type} (fs : FS) (top : PathName)
    (fn : σ → PathName → Option FileStat → Option GoError → σ × Option GoError) (s : σ) :
    Option (σ × Option GoError) :=
  let r :=
    match osLstat fs top with
    | .error err => some (fn s top none (some err))
    | .ok info => walk fn fs (maxDepth fs.entries + 1) s top info
  match r with
  | none => none
  | some (s1, some err) =>
    if err = .SkipDir ∨ err = .SkipAll then some (s1, none) else some (s1, some err)
  | some (s1, none) => some (s1, none)

/-! ## The package `opsfile` -/

/-- The Go function `CreateEmptyFile`. -/
def CreateEmptyFile (fs : FS) (path : PathName) : FS × Option GoError :=
  match osCreate fs path with
  | (fs1, .error err) => (fs1, some err)
  | (fs1, .ok file) => fileClose fs1 file

/-- The Go function `CreateFileWithContent`. -/
def CreateFileWithContent (fs : FS) (path : PathName) (content : Bytes) : FS × Option GoError :=
  osWriteFile fs path content 0o644

/-- The Go function `AppendToFile`. -/
def AppendToFile (fs : FS) (path : PathName) (content : Bytes) : FS × Option GoError :=
  match osOpenFile fs path ⟨true, true, false, true⟩ 0o644 with
  | (fs1, .error err) => (fs1, some err)
  | (fs1, .ok file) =>
    match fileWriteString fs1 file content with
    | (fs2, err) => ((fileClose fs2 file).1, err)

/-- The Go function `ClearFile`. -/
def ClearFile (fs : FS) (path : PathName) : FS × Option GoError :=
  osTruncate0 fs path

/-- The Go function `DeleteFile`. -/
def DeleteFile (fs : FS) (path : PathName) : FS × Option GoError :=
  osRemove fs path

/-- The Go function `RenameFile`. -/
def RenameFile (fs : FS) (oldPath newPath : PathName) : FS × Option GoError :=
  osRename fs oldPath newPath

/-- The Go function `MoveFile`. -/
def MoveFile (fs : FS) (srcPath dstPath : PathName) : FS × Option GoError :=
  match osMkdirAll fs (filepathDir dstPath) 0o755 with
  | (fs1, some err) => (fs1, some err)
  | (fs1, none) => osRename fs1 srcPath dstPath

/-- The Go function `CopyFile`. -/
def CopyFile (fs : FS) (srcPath dstPath : PathName) : FS × Option GoError :=
  match osOpen fs srcPath with
  | (fs0, .error err) => (fs0, some err)
  | (fs0, .ok src) =>
    match osMkdirAll fs0 (filepathDir dstPath) 0o755 with
    | (fs1, some err) => ((fileClose fs1 src).1, some err)
    | (fs1, none) =>
      match osCreate fs1 dstPath with
      | (fs2, .error err) => ((fileClose fs2 src).1, some err)
      | (fs2, .ok dst) =>
        match ioCopy fs2 dst src with
        | (fs3, some err) => ((fileClose (fileClose fs3 dst).1 src).1, some err)
        | (fs3, none) =>
          match osStat fs3 srcPath with
          | .error err => ((fileClose (fileClose fs3 dst).1 src).1, some err)
          | .ok srcInfo =>
            match osChmod fs3 dstPath srcInfo.mode with
            | (fs4, err) => ((fileClose (fileClose fs4 dst).1 src).1, err)

/-- The Go struct `FileInfo`. -/
structure FileInfo where
  Path : PathName
  Size : Nat
  Mode : Nat
  ModTime : Nat
  IsDir : Bool
  Owner : Nat
  Group : Nat
  deriving DecidableEq

/-- The Go function `ListFiles`. -/
def ListFiles (fs : FS) (dir : PathName) : List PathName × Option GoError :=
  match osReadDir fs dir with
  | (_, some err) => ([], some err)
  | (entries, none) =>
    (entries.foldl (fun files entry => files ++ [filepathJoin dir entry.name]) [], none)

/-- The callback that `ListFilesRecursive` hands to `filepath.Walk`.  The walk
passes a file info whenever it passes no error. -/
def listWalkFn (files : List PathName) (path : PathName) (info : Option FileStat)
    (err : Option GoError) : List PathName × Option GoError :=
  match err with
  | some e => (files, some e)
  | none =>
    match info with
    | some i => if !i.isDir then (files ++ [path], none) else (files, none)
    | none => (files, none)

/-- The Go function `ListFilesRecursive`; `none` would report that the walk
reached its depth bound. -/
def ListFilesRecursive (fs : FS) (dir : PathName) : Option (List PathName × Option GoError) :=
  filepathWalk fs dir listWalkFn []

/-- The Go function `GetFileInfo`. -/
def GetFileInfo (fs : FS) (path : PathName) : Option FileInfo × Option GoError :=
  match osStat fs path with
  | .error err => (none, some err)
  | .ok info =>
    match info.sys with
    | none => (none, some .ErrInvalid)
    | some sys =>
      (some ⟨path, info.size, info.mode, info.modTime, info.isDir, sys.1, sys.2⟩, none)

/-- The Go function `GetFileModTime`; the zero time is 0. -/
def GetFileModTime (fs : FS) (path : PathName) : Nat × Option GoError :=
  match osStat fs path with
  | .error err => (0, some err)
  | .ok info => (info.modTime, none)

/-- The error that a call returned, `none` for the nil error. -/
def errOf {α : Type} : Except GoError α → Option GoError
  | .ok _ => none
  | .error err => some err

/-- The body of `FileExists` below the call of `os.Stat`, as a function of the
error `err` that the call returned. -/
def fileExistsResult (err : Option GoError) : Bool × Option GoError :=
  match err with
  | none => (true, none)
  | some e => if osIsNotExist e then (false, none) else (false, some e)

/-- The Go function `FileExists`. -/
def FileExists (fs : FS) (path : PathName) : Bool × Option GoError :=
  fileExistsResult (errOf (osStat fs path))

/-- The Go function `SetFilePermissions`. -/
def SetFilePermissions (fs : FS) (path : PathName) (mode : Nat) : FS × Option GoError :=
  osChmod fs path mode

/-- The Go function `SetFileOwnerGroup`. -/
def SetFileOwnerGroup (fs : FS) (path : PathName) (uid gid : Int) : FS × Option GoError :=
  osChown fs path uid gid

/-! ## Reading a state -/

/-- Content of the regular file at a path, as `os.ReadFile` returns it. -/
def readFile (fs : FS) (path : PathName) : Option Bytes :=
  match resolve fs path with
  | .ok (.file _ d) => some d
  | _ => none

/-- Build a path from its names. -/
def mkPath (names : List String) : PathName :=
  names.foldl PathName.child PathName.root

/-- Test that a regular file is found at `q`. -/
def isRegular (fs : FS) (q : PathName) : Bool :=
  match resolve fs q with
  | .ok (.file _ _) => true
  | _ => false

/-- The files found in the subtree of `p`: what a walk of `p` has to collect. -/
def IsFileUnder (fs : FS) (p q : PathName) : Prop :=
  p.isUnder q = true ∧ ∃ a d, resolve fs q = .ok (.file a d)

/-- The paths outside the subtree of `p` are in `fs1` what they are in `fs`,
except that the directory holding `p` may have its modification time stamped. -/
def OutsideUnchanged (fs fs1 : FS) (p : PathName) : Prop :=
  ∀ x, p.isUnder x = false →
    forgetRes (resolve fs1 x) = forgetRes (resolve fs x) ∧
    (x ≠ filepathDir p → resolve fs1 x = resolve fs x)

/-- A regular file that was at `p` in `fs` is a regular file in `fs1`, with the
same mode, owner and group. -/
def KeepsFileAttr (fs fs1 : FS) (p : PathName) : Prop :=
  ∀ a d, resolve fs p = .ok (.file a d) →
    ∃ a1 d1, resolve fs1 p = .ok (.file a1 d1) ∧
      a1.mode = a.mode ∧ a1.uid = a.uid ∧ a1.gid = a.gid

/-! ## Sample states -/

/-- The directory `/tmp/sub`. -/
def subDir : PathName := mkPath ["tmp", "sub"]

/-- The path `/tmp/sub/b.txt`. -/
def bTxt : PathName := mkPath ["tmp", "sub", "b.txt"]

/-- A state where `/tmp` holds the file `a.txt` and the directory `sub`, which
holds the file `b.txt`. -/
def treeFS : FS :=
  { entries := [(mkPath ["tmp"], .dir ⟨0o755, 0, 0, 0⟩),
                (bTxt, .file ⟨0o644, 1, 1, 0⟩ []),
                (subDir, .dir ⟨0o755, 1, 1, 0⟩),
                (mkPath ["tmp", "a.txt"], .file ⟨0o644, 1, 1, 0⟩ [])],
    free := 100, umask := 0o022, euid := 1, egid := 1, clock := 7, dirSize := 4096,
    closeErr := none }


/-- The directory `/tmp`. -/
def tmpDir : PathName := mkPath ["tmp"]

/-- The path `/tmp/a.txt`. -/
def aTxt : PathName := mkPath ["tmp", "a.txt"]

/-- A state with the directory `/tmp` holding the two-byte file `a.txt`. -/
def sampleFS : FS :=
  { entries := [(tmpDir, .dir ⟨0o755, 0, 0, 0⟩), (aTxt, .file ⟨0o600, 1, 1, 0⟩ [104, 105])],
    free := 100, umask := 0o022, euid := 1, egid := 1, clock := 7, dirSize := 4096,
    closeErr := none }

/-- The sample state with no free block left. -/
def fullFS : FS := { sampleFS with free := 0 }

/-- The sample state in which closing a file reports that the disk quota is
exceeded, as a close that flushes delayed writes can. -/
def closeFailFS : FS := { sampleFS with closeErr := some .EDQUOT }

/-! ## Paths: ancestors and depth -/

theorem isUnder_refl (p : PathName) : p.isUnder p = true := by
  cases p <;> simp [PathName.isUnder]

theorem isUnder_child_iff (a q : PathName) (n : String) :
    a.isUnder (.child q n) = true ↔ a = .child q n ∨ a.isUnder q = true := by
  simp [PathName.isUnder]

theorem isUnder_root_iff (a : PathName) : a.isUnder .root = true ↔ a = .root := by
  simp [PathName.isUnder]

theorem root_isUnder (p : PathName) : PathName.root.isUnder p = true := by
  induction p with
  | root => simp [PathName.isUnder]
  | child q n ih => simp [PathName.isUnder, ih]

theorem isUnder_depth {a p : PathName} (h : a.isUnder p = true) : a.depth ≤ p.depth := by
  induction p with
  | root =>
    rw [isUnder_root_iff] at h
    subst h
    exact Nat.le_refl _
  | child q n ih =>
    rcases (isUnder_child_iff a q n).1 h with h1 | h1
    · subst h1
      exact Nat.le_refl _
    · have := ih h1
      simp only [PathName.depth]
      omega

theorem isUnder_trans {a b c : PathName} (h1 : a.isUnder b = true) (h2 : b.isUnder c = true) :
    a.isUnder c = true := by
  induction c with
  | root =>
    rw [isUnder_root_iff] at h2
    subst h2
    exact h1
  | child q n ih =>
    rcases (isUnder_child_iff b q n).1 h2 with h3 | h3
    · subst h3
      exact h1
    · exact (isUnder_child_iff a q n).2 (Or.inr (ih h3))

theorem child_not_isUnder_parent (q : PathName) (n : String) :
    (PathName.child q n).isUnder q = false := by
  cases h : (PathName.child q n).isUnder q
  · rfl
  · have := isUnder_depth h
    simp only [PathName.depth] at this
    omega

theorem isUnder_parent {a q : PathName} {n : String} (h : a.isUnder q = true) :
    a.isUnder (.child q n) = true :=
  (isUnder_child_iff a q n).2 (Or.inr h)

/-! ## The entry table -/

theorem lookup_filter (g : PathName → Bool) (k : PathName) (es : List (PathName × Node)) :
    lookup k (es.filter (fun e => g e.1)) = if g k = true then lookup k es else none := by
  induction es with
  | nil => simp [lookup]
  | cons e es ih =>
    by_cases hg : g e.1 = true
    · by_cases hk : e.1 = k
      · subst hk
        simp [List.filter_cons, lookup, hg]
      · simp [List.filter_cons, lookup, hg, hk, ih]
    · by_cases hk : e.1 = k
      · subst hk
        simp [List.filter_cons, hg, ih]
      · simp [List.filter_cons, lookup, hg, hk, ih]

theorem lookup_put (k q : PathName) (v : Node) (es : List (PathName × Node)) :
    lookup q (put k v es) = if k = q then some v else lookup q es := by
  by_cases h : k = q
  · simp [put, lookup, h]
  · have := lookup_filter (fun x => decide (x ≠ k)) q es
    simp only [put, lookup, h, if_false]
    rw [this]
    simp [Ne.symm h]

theorem lookup_purge (k q : PathName) (es : List (PathName × Node)) :
    lookup q (purge k es) = if k.isUnder q = true then none else lookup q es := by
  have := lookup_filter (fun x => !(k.isUnder x)) q es
  simp only [purge]
  rw [this]
  by_cases h : k.isUnder q = true <;> simp [h]

theorem resolve_congr (fs fs1 : FS) (p : PathName)
    (h : ∀ a, a.isUnder p = true → lookup a fs1.entries = lookup a fs.entries) :
    resolve fs1 p = resolve fs p := by
  induction p with
  | root =>
    simp only [resolve]
    rw [h .root (isUnder_refl _)]
  | child q n ih =>
    simp only [resolve]
    rw [ih (fun a ha => h a (isUnder_parent ha)), h _ (isUnder_refl _)]

/-! ## Path resolution -/

theorem resolve_root_isDir (fs : FS) : ∃ a, resolve fs .root = .ok (.dir a) := by
  simp only [resolve]
  split <;> exact ⟨_, rfl⟩

theorem resolve_child_ok {fs : FS} {q : PathName} {n : String} {v : Node}
    (h : resolve fs (.child q n) = .ok v) :
    (∃ a, resolve fs q = .ok (.dir a)) ∧ lookup (.child q n) fs.entries = some v := by
  simp only [resolve] at h
  cases hq : resolve fs q with
  | error e => simp [hq] at h
  | ok w =>
    cases w with
    | file a d => simp [hq] at h
    | dir a =>
      simp only [hq] at h
      cases hl : lookup (.child q n) fs.entries with
      | none => simp [hl] at h
      | some x =>
        simp only [hl, Except.ok.injEq] at h
        exact ⟨⟨a, rfl⟩, by rw [h]⟩

theorem resolve_child_of_dir {fs : FS} {q : PathName} {a : Attr} (n : String)
    (hq : resolve fs q = .ok (.dir a)) :
    resolve fs (.child q n) =
      match lookup (.child q n) fs.entries with
      | some v => .ok v
      | none => .error .ENOENT := by
  simp only [resolve, hq]

theorem resolve_file_not_root {fs : FS} {p : PathName} {a : Attr} {d : Bytes}
    (h : resolve fs p = .ok (.file a d)) : ∃ q n, p = .child q n := by
  cases p with
  | root =>
    obtain ⟨b, hb⟩ := resolve_root_isDir fs
    rw [hb] at h
    cases h
  | child q n => exact ⟨q, n, rfl⟩

/-- A change of the table confined to the subtree of `k` is invisible outside it. -/
theorem resolve_off (fs fs1 : FS) (k : PathName)
    (h : ∀ a, k.isUnder a = false → lookup a fs1.entries = lookup a fs.entries)
    (p : PathName) (hp : k.isUnder p = false) : resolve fs1 p = resolve fs p := by
  apply resolve_congr
  intro a ha
  apply h
  cases hk : k.isUnder a
  · rfl
  · rw [isUnder_trans hk ha] at hp
    cases hp

theorem lookup_put_off (k : PathName) (v : Node) (es : List (PathName × Node)) (a : PathName)
    (ha : k.isUnder a = false) : lookup a (put k v es) = lookup a es := by
  rw [lookup_put]
  by_cases h : k = a
  · subst h
    rw [isUnder_refl] at ha
    cases ha
  · simp [h]

theorem lookup_purge_off (k : PathName) (es : List (PathName × Node)) (a : PathName)
    (ha : k.isUnder a = false) : lookup a (purge k es) = lookup a es := by
  rw [lookup_purge]
  simp [ha]

/-- Rebinding an entry whose parent is a directory makes the path resolve to the
new node. -/
theorem resolve_put_self (fs fs1 : FS) (q : PathName) (n : String) (v : Node) (a : Attr)
    (es : List (PathName × Node))
    (he : fs1.entries = put (.child q n) v es)
    (hoff : ∀ x, (PathName.child q n).isUnder x = false → lookup x es = lookup x fs.entries)
    (hq : resolve fs q = .ok (.dir a)) :
    resolve fs1 (.child q n) = .ok v := by
  have hq1 : resolve fs1 q = .ok (.dir a) := by
    rw [← hq]
    apply resolve_off fs fs1 (.child q n) _ q (child_not_isUnder_parent q n)
    intro x hx
    rw [he, lookup_put_off _ _ _ _ hx, hoff x hx]
  rw [resolve_child_of_dir n hq1, he, lookup_put]
  simp

theorem resolve_put_other (fs fs1 : FS) (k : PathName) (v : Node)
    (es : List (PathName × Node))
    (he : fs1.entries = put k v es)
    (hoff : ∀ x, k.isUnder x = false → lookup x es = lookup x fs.entries)
    (p : PathName) (hp : k.isUnder p = false) : resolve fs1 p = resolve fs p := by
  apply resolve_off fs fs1 k _ p hp
  intro x hx
  rw [he, lookup_put_off _ _ _ _ hx, hoff x hx]

/-- Dropping a subtree whose parent is a directory leaves nothing at its root. -/
theorem resolve_purge_self (fs fs1 : FS) (q : PathName) (n : String) (a : Attr)
    (he : fs1.entries = purge (.child q n) fs.entries)
    (hq : resolve fs q = .ok (.dir a)) :
    resolve fs1 (.child q n) = .error .ENOENT := by
  have hq1 : resolve fs1 q = .ok (.dir a) := by
    rw [← hq]
    apply resolve_off fs fs1 (.child q n) _ q (child_not_isUnder_parent q n)
    intro x hx
    rw [he, lookup_purge_off _ _ _ hx]
  rw [resolve_child_of_dir n hq1, he, lookup_purge]
  simp [isUnder_refl]

theorem resolve_purge_other (fs fs1 : FS) (k : PathName)
    (he : fs1.entries = purge k fs.entries)
    (p : PathName) (hp : k.isUnder p = false) : resolve fs1 p = resolve fs p := by
  apply resolve_off fs fs1 k _ p hp
  intro x hx
  rw [he, lookup_purge_off _ _ _ hx]

/-! ## Changes that stamp directories -/

theorem child_ne_self (q : PathName) (n : String) : PathName.child q n ≠ q := by
  intro h
  have := congrArg PathName.depth h
  simp only [PathName.depth] at this
  omega

theorem forget_eq_file {w : Node} {a : Attr} {d : Bytes}
    (h : w.forget = Node.forget (.file a d)) : w = .file a d := by
  cases w with
  | file a1 d1 => simpa [Node.forget] using h
  | dir a1 => simp [Node.forget] at h

theorem forget_isDir (w : Node) : w.forget.isDir = w.isDir := by
  cases w <;> rfl

theorem forgetRes_ok {r1 r : Except GoError Node} (h : forgetRes r1 = forgetRes r) {w : Node}
    (hr : r = .ok w) : ∃ w1, r1 = .ok w1 ∧ w1.forget = w.forget := by
  subst hr
  cases r1 with
  | error e => simp [forgetRes] at h
  | ok w1 =>
    simp only [forgetRes, Except.ok.injEq] at h
    exact ⟨w1, rfl, h⟩

theorem forgetRes_error {r1 r : Except GoError Node} (h : forgetRes r1 = forgetRes r)
    {e : GoError} (hr : r = .error e) : r1 = .error e := by
  subst hr
  cases r1 with
  | error e1 =>
    simp only [forgetRes, Except.error.injEq] at h
    rw [h]
  | ok w1 => simp [forgetRes] at h

theorem forgetRes_file {r1 r : Except GoError Node} (h : forgetRes r1 = forgetRes r)
    {a : Attr} {d : Bytes} (hr : r = .ok (.file a d)) : r1 = .ok (.file a d) := by
  obtain ⟨w1, h1, h2⟩ := forgetRes_ok h hr
  rw [h1, forget_eq_file h2]

theorem forgetRes_dir {r1 r : Except GoError Node} (h : forgetRes r1 = forgetRes r)
    {b : Attr} (hr : r = .ok (.dir b)) : ∃ b1, r1 = .ok (.dir b1) := by
  obtain ⟨w1, h1, h2⟩ := forgetRes_ok h hr
  cases w1 with
  | file a1 d1 => simp [Node.forget] at h2
  | dir b1 => exact ⟨b1, h1⟩

/-- One step of a resolution depends on the parent only through its kind. -/
theorem resolve_child_congr (fs fs1 : FS) (q : PathName) (n : String)
    (hq : forgetRes (resolve fs1 q) = forgetRes (resolve fs q)) :
    (lookup (.child q n) fs1.entries = lookup (.child q n) fs.entries →
      resolve fs1 (.child q n) = resolve fs (.child q n)) ∧
    ((lookup (.child q n) fs1.entries).map Node.forget
        = (lookup (.child q n) fs.entries).map Node.forget →
      forgetRes (resolve fs1 (.child q n)) = forgetRes (resolve fs (.child q n))) := by
  cases hr : resolve fs q with
  | error e =>
    have h1 := forgetRes_error hq hr
    simp [resolve, hr, h1, forgetRes]
  | ok w =>
    cases w with
    | file a d =>
      have h1 := forgetRes_file hq hr
      simp [resolve, hr, h1, forgetRes]
    | dir b =>
      obtain ⟨b1, h1⟩ := forgetRes_dir hq hr
      simp only [resolve, hr, h1]
      constructor
      · intro h
        rw [h]
      · intro h
        cases h2 : lookup (.child q n) fs1.entries with
        | none =>
          rw [h2] at h
          cases h3 : lookup (.child q n) fs.entries with
          | none => rfl
          | some v => simp [h3] at h
        | some v1 =>
          rw [h2] at h
          cases h3 : lookup (.child q n) fs.entries with
          | none => simp [h3] at h
          | some v =>
            simp only [h3, Option.map_some', Option.some.injEq] at h
            simp [forgetRes, h]

/-- Outside a region that is closed under descent, a table in which the only
changes are stamped directories resolves as before, up to the stamps. -/
theorem frame (fs fs1 : FS) (S : PathName → Prop)
    (hS : ∀ a x, a.isUnder x = true → S a → S x)
    (hl : ∀ x, ¬ S x → lookup x fs1.entries = lookup x fs.entries ∨
      ∃ b, resolve fs x = .ok (.dir b) ∧
        lookup x fs1.entries = some (.dir { b with mtime := fs.clock }))
    (x : PathName) (hx : ¬ S x) :
    forgetRes (resolve fs1 x) = forgetRes (resolve fs x) ∧
    (lookup x fs1.entries = lookup x fs.entries → resolve fs1 x = resolve fs x) := by
  induction x with
  | root =>
    have hsame : lookup .root fs1.entries = lookup .root fs.entries →
        resolve fs1 .root = resolve fs .root := by
      intro h
      simp only [resolve, h]
    refine ⟨?_, hsame⟩
    rcases hl .root hx with h | ⟨b, hb, h1⟩
    · rw [hsame h]
    · have : resolve fs1 .root = .ok (.dir { b with mtime := fs.clock }) := by
        simp only [resolve, h1]
      rw [this, hb]
      simp [forgetRes, Node.forget]
  | child q n ih =>
    have hq : ¬ S q := fun h => hx (hS q _ (isUnder_parent (isUnder_refl q)) h)
    obtain ⟨hexact, hforget⟩ := resolve_child_congr fs fs1 q n (ih hq).1
    refine ⟨?_, hexact⟩
    rcases hl _ hx with h | ⟨b, hb, h1⟩
    · rw [hexact h]
    · apply hforget
      rw [h1, (resolve_child_ok hb).2]
      simp [Node.forget]

theorem lookup_touchParent_ne (fs : FS) (name x : PathName) (es : List (PathName × Node))
    (h : x ≠ filepathDir name) : lookup x (touchParent fs name es) = lookup x es := by
  unfold touchParent
  split
  · rw [lookup_put]
    simp [Ne.symm h]
  · rfl

theorem lookup_touchParent (fs : FS) (name x : PathName) (es : List (PathName × Node)) :
    lookup x (touchParent fs name es) = lookup x es ∨
    ∃ b, resolve fs x = .ok (.dir b) ∧
      lookup x (touchParent fs name es) = some (.dir { b with mtime := fs.clock }) := by
  by_cases h : x = filepathDir name
  · unfold touchParent
    split
    · rename_i b hb
      right
      refine ⟨b, by rw [h, hb], ?_⟩
      rw [lookup_put]
      simp [h]
    · left
      rfl
  · left
    exact lookup_touchParent_ne fs name x es h

/-- A call that adds or removes the entry `name` leaves every path outside the
subtree of `name` as it was, up to the stamp on the directory holding `name`. -/
theorem touch_purge_frame (fs fs1 : FS) (name : PathName)
    (he : ∀ x, name.isUnder x = false →
      lookup x fs1.entries = lookup x (touchParent fs name (purge name fs.entries)))
    (x : PathName) (hx : name.isUnder x = false) :
    forgetRes (resolve fs1 x) = forgetRes (resolve fs x) ∧
    (x ≠ filepathDir name → resolve fs1 x = resolve fs x) := by
  have hfr := frame fs fs1 (fun y => name.isUnder y = true)
    (fun a y hay ha => isUnder_trans ha hay)
    (fun y hy => by
      have hy1 : name.isUnder y = false := by
        cases h : name.isUnder y
        · rfl
        · exact absurd h hy
      rw [he y hy1]
      rcases lookup_touchParent fs name y (purge name fs.entries) with h | ⟨b, hb, h⟩
      · left
        rw [h, lookup_purge_off _ _ _ hy1]
      · right
        exact ⟨b, hb, h⟩)
    x (by simp [hx])
  refine ⟨hfr.1, fun hne => hfr.2 ?_⟩
  rw [he x hx, lookup_touchParent_ne fs name x _ hne, lookup_purge_off _ _ _ hx]

/-- An entry put below a directory by a call that stamps the directory is found
at its path. -/
theorem resolve_created (fs fs1 : FS) (q : PathName) (n : String) (v : Node) (b : Attr)
    (hq : resolve fs q = .ok (.dir b))
    (he : fs1.entries = put (.child q n) v
      (touchParent fs (.child q n) (purge (.child q n) fs.entries))) :
    resolve fs1 (.child q n) = .ok v := by
  have hf := (touch_purge_frame fs fs1 (.child q n)
    (fun x hx => by rw [he, lookup_put_off _ _ _ _ hx]) q (child_not_isUnder_parent q n)).1
  obtain ⟨b1, hq1⟩ := forgetRes_dir hf hq
  rw [resolve_child_of_dir n hq1, he, lookup_put]
  simp

/-- An entry dropped from a directory by a call that stamps the directory is
no longer found at its path. -/
theorem resolve_removed (fs fs1 : FS) (q : PathName) (n : String) (b : Attr)
    (hq : resolve fs q = .ok (.dir b))
    (he : fs1.entries = touchParent fs (.child q n) (purge (.child q n) fs.entries)) :
    resolve fs1 (.child q n) = .error .ENOENT := by
  have hf := (touch_purge_frame fs fs1 (.child q n)
    (fun x _ => by rw [he]) q (child_not_isUnder_parent q n)).1
  obtain ⟨b1, hq1⟩ := forgetRes_dir hf hq
  rw [resolve_child_of_dir n hq1, he,
    lookup_touchParent_ne _ _ _ _ (child_ne_self q n), lookup_purge]
  simp [isUnder_refl]

theorem readFile_of_resolve {fs : FS} {p : PathName} {a : Attr} {d : Bytes}
    (h : resolve fs p = .ok (.file a d)) : readFile fs p = some d := by
  simp [readFile, h]

/-- What a successful `os.OpenFile` for writing leaves at the path. -/
theorem osOpenFile_write_ok (fs fs1 : FS) (p : PathName) (flag : OpenFlags) (perm : Nat)
    (f : File) (hw : flag.write = true) (h : osOpenFile fs p flag perm = (fs1, .ok f)) :
    f = ⟨p, flag.append⟩ ∧
    ∃ a, resolve fs1 p =
      .ok (.file a (if flag.trunc = true then [] else (readFile fs p).getD [])) := by
  unfold osOpenFile at h
  split at h
  · simp [hw] at h
  · rename_i a d hr
    obtain ⟨q, n, rfl⟩ := resolve_file_not_root hr
    obtain ⟨⟨b, hq⟩, -⟩ := resolve_child_ok hr
    by_cases ht : flag.trunc = true
    · simp only [hw, ht, Bool.and_self, if_true, Prod.mk.injEq, Except.ok.injEq] at h
      obtain ⟨h1, h2⟩ := h
      refine ⟨h2.symm, ?_⟩
      simp only [ht, if_true]
      exact ⟨_, resolve_put_self fs fs1 q n _ b fs.entries (by rw [← h1]) (fun _ _ => rfl) hq⟩
    · simp only [hw, ht, Bool.and_false, Bool.false_eq_true, if_false, Prod.mk.injEq,
        Except.ok.injEq] at h
      obtain ⟨h1, h2⟩ := h
      subst h1
      refine ⟨h2.symm, a, ?_⟩
      simp [ht, readFile_of_resolve hr, hr]
  · rename_i hr
    split at h
    · split at h
      · rename_i b hd
        simp only [Prod.mk.injEq, Except.ok.injEq] at h
        obtain ⟨h1, h2⟩ := h
        cases p with
        | root =>
          obtain ⟨c, hc⟩ := resolve_root_isDir fs
          rw [hc] at hr
          cases hr
        | child q n =>
          refine ⟨h2.symm, ?_⟩
          have hrd : readFile fs (.child q n) = none := by simp [readFile, hr]
          simp only [hrd, Option.getD_none, ite_self]
          exact ⟨_, resolve_created fs fs1 q n _ b hd (by rw [← h1])⟩
      · simp at h
    · simp at h
  · simp at h

/-- What a write that reports no error leaves in the file. -/
theorem fileWrite_ok (fs fs2 : FS) (p : PathName) (app : Bool) (a : Attr) (old data : Bytes)
    (hr : resolve fs p = .ok (.file a old))
    (h : fileWrite fs ⟨p, app⟩ data = (fs2, none)) :
    ∃ a1, resolve fs2 p =
      .ok (.file a1 (if app = true then old ++ data else data ++ old.drop data.length)) := by
  obtain ⟨q, n, rfl⟩ := resolve_file_not_root hr
  obtain ⟨⟨b, hq⟩, hl⟩ := resolve_child_ok hr
  simp only [fileWrite, hl, Prod.mk.injEq] at h
  obtain ⟨h1, h2⟩ := h
  have hw : min data.length ((blocksOf old.length + fs.free) * blockSize
      - if app = true then old.length else 0) = data.length := by
    by_contra hne
    have hlt := lt_of_le_of_ne (min_le_left data.length
      ((blocksOf old.length + fs.free) * blockSize - if app = true then old.length else 0)) hne
    simp [hlt] at h2
  rw [hw] at h1
  simp only [List.take_length] at h1
  exact ⟨_, resolve_put_self fs fs2 q n _ b fs.entries (by rw [← h1]) (fun _ _ => rfl) hq⟩

theorem appendToFile_ok (fs fs1 : FS) (p : PathName) (c : Bytes)
    (h : AppendToFile fs p c = (fs1, none)) :
    readFile fs1 p = some ((readFile fs p).getD [] ++ c) := by
  unfold AppendToFile at h
  split at h
  · simp at h
  · rename_i fs0 file ho
    obtain ⟨hf, a, hr⟩ := osOpenFile_write_ok fs fs0 p _ _ file rfl ho
    subst hf
    simp only [Bool.false_eq_true, if_false] at hr
    simp only [fileWriteString, fileClose, Prod.mk.injEq] at h
    obtain ⟨h1, h2⟩ := h
    have hwr : fileWrite fs0 ⟨p, true⟩ c = (fs1, none) := Prod.ext h1 h2
    obtain ⟨a1, hr2⟩ := fileWrite_ok fs0 fs1 p true a _ c hr hwr
    simp only [if_true] at hr2
    exact readFile_of_resolve hr2

theorem createFileWithContent_ok (fs fs1 : FS) (p : PathName) (c : Bytes)
    (h : CreateFileWithContent fs p c = (fs1, none)) :
    readFile fs1 p = some c := by
  unfold CreateFileWithContent osWriteFile at h
  split at h
  · simp at h
  · rename_i fs0 file ho
    obtain ⟨hf, a, hr⟩ := osOpenFile_write_ok fs fs0 p _ _ file rfl ho
    subst hf
    simp only [if_true] at hr
    simp only [fileClose, Prod.mk.injEq] at h
    obtain ⟨h1, h2⟩ := h
    have h3 : (fileWrite fs0 ⟨p, false⟩ c).2 = none := by
      cases he : (fileWrite fs0 ⟨p, false⟩ c).2 with
      | none => rfl
      | some e0 => simp [he] at h2
    have hwr : fileWrite fs0 ⟨p, false⟩ c = (fs1, none) := Prod.ext h1 h3
    obtain ⟨a1, hr2⟩ := fileWrite_ok fs0 fs1 p false a _ c hr hwr
    simp only [Bool.false_eq_true, if_false, List.drop_nil, List.append_nil] at hr2
    exact readFile_of_resolve hr2

theorem sysUnlink_fail (fs fs1 : FS) (p : PathName) (e : GoError)
    (h : sysUnlink fs p = (fs1, some e)) : fs1 = fs := by
  unfold sysUnlink at h
  split at h <;> simp at h <;> exact h.1.symm

/-- A successful `os.Remove` dropped the subtree of an entry whose parent is a
directory, and stamped that directory. -/
theorem osRemove_ok (fs fs1 : FS) (p : PathName) (h : osRemove fs p = (fs1, none)) :
    ∃ q n a, p = .child q n ∧ resolve fs q = .ok (.dir a) ∧
      fs1.entries = touchParent fs p (purge p fs.entries) := by
  unfold osRemove at h
  split at h
  · rename_i fs0 hu
    simp only [Prod.mk.injEq, and_true] at h
    subst h
    unfold sysUnlink at hu
    split at hu
    · simp at hu
    · simp at hu
    · rename_i a d hr
      obtain ⟨q, n, rfl⟩ := resolve_file_not_root hr
      obtain ⟨⟨b, hq⟩, -⟩ := resolve_child_ok hr
      simp only [Prod.mk.injEq, and_true] at hu
      exact ⟨q, n, b, rfl, hq, by rw [← hu]⟩
  · rename_i fs0 e hu
    have h0 := sysUnlink_fail fs fs0 p e hu
    subst h0
    split at h
    · rename_i fs2 hrm
      simp only [Prod.mk.injEq, and_true] at h
      subst h
      unfold sysRmdir at hrm
      split at hrm
      · simp at hrm
      · simp at hrm
      · rename_i a hr
        split at hrm
        · simp at hrm
        · split at hrm
          · simp at hrm
          · rename_i hroot hch
            cases p with
            | root => exact absurd rfl hroot
            | child q n =>
              obtain ⟨⟨b, hq⟩, -⟩ := resolve_child_ok hr
              simp only [Prod.mk.injEq, and_true] at hrm
              exact ⟨q, n, b, rfl, hq, by rw [← hrm]⟩
    · simp at h

theorem fileExists_of_enoent {fs : FS} {p : PathName} (h : resolve fs p = .error .ENOENT) :
    FileExists fs p = (false, none) := by
  simp [FileExists, osStat, h, osIsNotExist, errOf, fileExistsResult]

theorem resolve_of_fileExists_false {fs : FS} {p : PathName}
    (h : FileExists fs p = (false, none)) : resolve fs p = .error .ENOENT := by
  unfold FileExists osStat at h
  cases hr : resolve fs p with
  | ok v => simp [hr, errOf, fileExistsResult] at h
  | error e =>
    cases e <;> simp [hr, osIsNotExist, errOf, fileExistsResult] at h
    rfl

theorem deleteFile_missing (fs : FS) (p : PathName) (h : resolve fs p = .error .ENOENT) :
    DeleteFile fs p = (fs, some .ENOENT) := by
  simp [DeleteFile, osRemove, sysUnlink, sysRmdir, h]

/-! ## Directory listings -/

theorem lookup_isSome_iff (k : PathName) (es : List (PathName × Node)) :
    (∃ v, lookup k es = some v) ↔ ∃ e ∈ es, e.1 = k := by
  induction es with
  | nil => simp [lookup]
  | cons e es ih =>
    by_cases hk : e.1 = k
    · simp [lookup, hk]
    · simp [lookup, hk, ih]

theorem mem_childNames (dir : PathName) (n : String) (es : List (PathName × Node)) :
    n ∈ childNames dir es ↔ ∃ v, lookup (.child dir n) es = some v := by
  rw [lookup_isSome_iff]
  simp only [childNames, List.mem_dedup, List.mem_filterMap]
  constructor
  · rintro ⟨e, he, h⟩
    refine ⟨e, he, ?_⟩
    split at h
    · rename_i q m hq
      by_cases hqd : q = dir
      · simp only [hqd, if_true, Option.some.injEq] at h
        rw [hq, hqd, h]
      · simp [hqd] at h
    · cases h
  · rintro ⟨e, he, h⟩
    refine ⟨e, he, ?_⟩
    rw [h]
    simp

theorem mem_sortedNames (dir : PathName) (n : String) (es : List (PathName × Node)) :
    n ∈ sortedNames dir es ↔ ∃ v, lookup (.child dir n) es = some v := by
  rw [← mem_childNames]
  exact (List.perm_insertionSort _ _).mem_iff

theorem nodup_sortedNames (dir : PathName) (es : List (PathName × Node)) :
    (sortedNames dir es).Nodup :=
  (List.perm_insertionSort _ _).nodup_iff.2 (List.nodup_dedup _)

theorem foldl_join (dir : PathName) (entries : List DirEntry) (acc : List PathName) :
    entries.foldl (fun files entry => files ++ [filepathJoin dir entry.name]) acc
      = acc ++ entries.map (fun entry => filepathJoin dir entry.name) := by
  induction entries generalizing acc with
  | nil => simp
  | cons e es ih => simp [ih]

/-- The list returned by `ListFiles` on a directory. -/
theorem listFiles_of_dir (fs : FS) (dir : PathName) (a : Attr)
    (h : resolve fs dir = .ok (.dir a)) :
    ListFiles fs dir = ((sortedNames dir fs.entries).map (filepathJoin dir), none) := by
  simp only [ListFiles, osReadDir, h, foldl_join, List.nil_append, List.map_map]
  rfl

/-! ## The recursive walk -/

theorem resolve_ancestor {fs : FS} {q : PathName} {w : Node} (h : resolve fs q = .ok w)
    {a : PathName} (ha : a.isUnder q = true) :
    a = q ∨ ∃ b, resolve fs a = .ok (.dir b) := by
  induction q generalizing w with
  | root =>
    left
    exact (isUnder_root_iff a).1 ha
  | child q1 m ih =>
    rcases (isUnder_child_iff a q1 m).1 ha with h1 | h1
    · exact Or.inl h1
    · right
      obtain ⟨⟨b, hb⟩, -⟩ := resolve_child_ok h
      rcases ih hb h1 with h2 | h2
      · subst h2
        exact ⟨b, hb⟩
      · exact h2

theorem siblings_under {p q : PathName} {n1 n2 : String}
    (h1 : (PathName.child p n1).isUnder q = true) (h2 : (PathName.child p n2).isUnder q = true) :
    n1 = n2 := by
  induction q with
  | root =>
    rw [isUnder_root_iff] at h1
    cases h1
  | child q1 m ih =>
    rcases (isUnder_child_iff _ q1 m).1 h1 with e1 | u1
    · rcases (isUnder_child_iff _ q1 m).1 h2 with e2 | u2
      · cases e1
        cases e2
        rfl
      · cases e1
        rw [child_not_isUnder_parent] at u2
        cases u2
    · rcases (isUnder_child_iff _ q1 m).1 h2 with e2 | u2
      · cases e2
        rw [child_not_isUnder_parent] at u1
        cases u1
      · exact ih u1 u2

theorem exists_child_under {p q : PathName} (h : p.isUnder q = true) (hne : p ≠ q) :
    ∃ n, (PathName.child p n).isUnder q = true := by
  induction q with
  | root => exact absurd ((isUnder_root_iff p).1 h) hne
  | child q1 m ih =>
    rcases (isUnder_child_iff p q1 m).1 h with h1 | h1
    · exact absurd h1 hne
    · by_cases hp : p = q1
      · subst hp
        exact ⟨m, isUnder_refl _⟩
      · obtain ⟨n, hn⟩ := ih h1 hp
        exact ⟨n, isUnder_parent hn⟩

theorem depth_le_maxDepth {es : List (PathName × Node)} {e : PathName × Node} (h : e ∈ es) :
    e.1.depth ≤ maxDepth es := by
  induction es with
  | nil => cases h
  | cons x xs ih =>
    simp only [maxDepth]
    rcases List.mem_cons.1 h with h1 | h1
    · subst h1
      exact le_max_left _ _
    · exact le_trans (ih h1) (le_max_right _ _)

theorem depth_le_of_resolve {fs : FS} {p : PathName} {v : Node} (h : resolve fs p = .ok v) :
    p.depth ≤ maxDepth fs.entries := by
  cases p with
  | root => exact Nat.zero_le _
  | child q n =>
    obtain ⟨e, he, hk⟩ := (lookup_isSome_iff _ _).1 ⟨v, (resolve_child_ok h).2⟩
    rw [← hk]
    exact depth_le_maxDepth he

/-- The loop over the names of a directory collects, after `acc`, the files below
each named child, provided the recursive call does so for every child. -/
theorem walkNames_collects (fs : FS) (p : PathName)
    (recur : List PathName → PathName → FileStat → Option (List PathName × Option GoError))
    (hrec : ∀ n v, resolve fs (.child p n) = .ok v → ∀ acc, ∃ L,
      recur acc (.child p n) (statOf fs.dirSize v) = some (acc ++ L, none) ∧ L.Nodup ∧
      ∀ q, q ∈ L ↔ IsFileUnder fs (.child p n) q)
    (names : List String) (hn : names.Nodup)
    (hres : ∀ n ∈ names, ∃ v, resolve fs (.child p n) = .ok v) (acc : List PathName) :
    ∃ L, walkNames listWalkFn recur fs p names acc = some (acc ++ L, none) ∧ L.Nodup ∧
      ∀ q, q ∈ L ↔ ∃ n ∈ names, IsFileUnder fs (.child p n) q := by
  induction names generalizing acc with
  | nil => exact ⟨[], by simp [walkNames], List.nodup_nil, by simp⟩
  | cons name rest ih =>
    obtain ⟨v, hv⟩ := hres name (List.mem_cons_self _ _)
    obtain ⟨L1, hL1, hnd1, hmem1⟩ := hrec name v hv acc
    obtain ⟨L2, hL2, hnd2, hmem2⟩ := ih (List.nodup_cons.1 hn).2
      (fun n h => hres n (List.mem_cons_of_mem _ h)) (acc ++ L1)
    refine ⟨L1 ++ L2, ?_, ?_, ?_⟩
    · simp only [walkNames, filepathJoin, osLstat, osStat, hv, hL1, hL2, List.append_assoc]
    · refine List.Nodup.append hnd1 hnd2 ?_
      intro q h1 h2
      obtain ⟨n, hnr, hu, -⟩ := (hmem2 q).1 h2
      have := siblings_under ((hmem1 q).1 h1).1 hu
      subst this
      exact (List.nodup_cons.1 hn).1 hnr
    · intro q
      simp only [List.mem_append, hmem1, hmem2, List.mem_cons, exists_eq_or_imp]

/-- The recursive descent collects, after `acc`, exactly the files below `p`. -/
theorem walk_collects (fs : FS) (fuel : Nat) :
    ∀ (p : PathName) (v : Node), resolve fs p = .ok v →
      maxDepth fs.entries < fuel + p.depth → ∀ acc, ∃ L,
      walk listWalkFn fs fuel acc p (statOf fs.dirSize v) = some (acc ++ L, none) ∧ L.Nodup ∧
      ∀ q, q ∈ L ↔ IsFileUnder fs p q := by
  induction fuel with
  | zero =>
    intro p v hv hd
    have := depth_le_of_resolve hv
    omega
  | succ fuel ih =>
    intro p v hv hd acc
    cases v with
    | file a d =>
      refine ⟨[p], by simp [walk, statOf, listWalkFn], List.nodup_singleton _, ?_⟩
      intro q
      simp only [List.mem_singleton, IsFileUnder]
      constructor
      · rintro rfl
        exact ⟨isUnder_refl _, a, d, hv⟩
      · rintro ⟨hu, a1, d1, hq⟩
        rcases resolve_ancestor hq hu with h1 | ⟨b, hb⟩
        · exact h1.symm
        · rw [hv] at hb
          cases hb
    | dir a =>
      have hrec : ∀ n w, resolve fs (.child p n) = .ok w → ∀ acc, ∃ L,
          (fun s2 p1 i => walk listWalkFn fs fuel s2 p1 i) acc (.child p n) (statOf fs.dirSize w)
            = some (acc ++ L, none) ∧ L.Nodup ∧ ∀ q, q ∈ L ↔ IsFileUnder fs (.child p n) q := by
        intro n w hw acc1
        apply ih (.child p n) w hw
        simp only [PathName.depth]
        omega
      obtain ⟨L, hL, hnd, hmem⟩ := walkNames_collects fs p _ hrec (sortedNames p fs.entries)
        (nodup_sortedNames p fs.entries)
        (fun n hn => by
          obtain ⟨w, hw⟩ := (mem_sortedNames p n fs.entries).1 hn
          exact ⟨w, by rw [resolve_child_of_dir n hv, hw]⟩) acc
      refine ⟨L, ?_, hnd, ?_⟩
      · simp only [walk, statOf, readDirNames, hv, listWalkFn, Bool.not_true,
          Bool.false_eq_true, if_false, Option.isSome_none, Bool.or_self]
        exact hL
      · intro q
        rw [hmem]
        constructor
        · rintro ⟨n, -, hu, hf⟩
          exact ⟨isUnder_trans (isUnder_parent (isUnder_refl p)) hu, hf⟩
        · rintro ⟨hu, a1, d1, hq⟩
          have hne : p ≠ q := by
            rintro rfl
            rw [hv] at hq
            cases hq
          obtain ⟨n, hn⟩ := exists_child_under hu hne
          refine ⟨n, ?_, hn, a1, d1, hq⟩
          rw [mem_sortedNames]
          rcases resolve_ancestor hq hn with h1 | ⟨b, hb⟩
          · rw [← h1] at hq
            exact ⟨_, (resolve_child_ok hq).2⟩
          · exact ⟨_, (resolve_child_ok hb).2⟩

/-- The result of `ListFilesRecursive` on a path that resolves. -/
theorem listFilesRecursive_collects (fs : FS) (p : PathName) (v : Node)
    (hv : resolve fs p = .ok v) :
    ∃ L, ListFilesRecursive fs p = some (L, none) ∧ L.Nodup ∧
      ∀ q, q ∈ L ↔ IsFileUnder fs p q := by
  obtain ⟨L, hL, hnd, hmem⟩ := walk_collects fs (maxDepth fs.entries + 1) p v hv (by omega) []
  refine ⟨L, ?_, hnd, hmem⟩
  simp only [ListFilesRecursive, filepathWalk, osLstat, osStat, hv, hL, List.nil_append]

/-! ## Creating directories -/

theorem resolve_under_ok {fs : FS} {q : PathName} {w : Node} (h : resolve fs q = .ok w)
    {a : PathName} (ha : a.isUnder q = true) : ∃ u, resolve fs a = .ok u := by
  rcases resolve_ancestor h ha with h1 | ⟨b, hb⟩
  · subst h1
    exact ⟨w, h⟩
  · exact ⟨_, hb⟩

theorem osMkdir_fail (fs fs1 : FS) (p : PathName) (perm : Nat) (e : GoError)
    (h : osMkdir fs p perm = (fs1, some e)) : fs1 = fs := by
  unfold osMkdir at h
  split at h
  · simp at h
    exact h.1.symm
  · split at h <;> simp at h <;> exact h.1.symm

/-- A successful `mkdir` leaves a directory at the path and nothing below it;
every path outside is as before, up to the stamp on the parent. -/
theorem osMkdir_ok (fs fs1 : FS) (p : PathName) (perm : Nat)
    (h : osMkdir fs p perm = (fs1, none)) :
    (∃ b, resolve fs1 p = .ok (.dir b)) ∧
    (∀ x, p.isUnder x = false → forgetRes (resolve fs1 x) = forgetRes (resolve fs x)) ∧
    (∀ x, p.isUnder x = true →
      (∀ w, resolve fs x ≠ .ok w) ∧ (∀ w1, resolve fs1 x = .ok w1 → x = p)) := by
  unfold osMkdir at h
  split at h
  · simp at h
  · rename_i e0 hp
    split at h
    · simp at h
    · simp at h
    · rename_i b hq
      simp only [Prod.mk.injEq, and_true] at h
      cases p with
      | root =>
        obtain ⟨c, hc⟩ := resolve_root_isDir fs
        rw [hc] at hp
        cases hp
      | child q n =>
        simp only [filepathDir] at hq
        have he : fs1.entries = put (.child q n) (.dir (newAttr fs perm))
            (touchParent fs (.child q n) (purge (.child q n) fs.entries)) := by rw [← h]
        refine ⟨⟨_, resolve_created fs fs1 q n _ b hq he⟩, ?_, ?_⟩
        · intro x hx
          exact (touch_purge_frame fs fs1 (.child q n)
            (fun y hy => by rw [he, lookup_put_off _ _ _ _ hy]) x hx).1
        · intro x hx
          constructor
          · intro w hw
            obtain ⟨u, hu⟩ := resolve_under_ok hw hx
            rw [hu] at hp
            cases hp
          · intro w1 hw1
            by_contra hne
            cases x with
            | root =>
              rw [isUnder_root_iff] at hx
              cases hx
            | child y m =>
              have hl := (resolve_child_ok hw1).2
              have hxq : PathName.child y m ≠ filepathDir (.child q n) := by
                intro hxq
                simp only [filepathDir] at hxq
                rw [hxq, child_not_isUnder_parent] at hx
                cases hx
              rw [he, lookup_put, lookup_touchParent_ne _ _ _ _ hxq, lookup_purge] at hl
              simp [Ne.symm hne, hx] at hl

/-- Go `os.MkdirAll` keeps every entry that existed, up to stamps on
directories; what it adds are directories on the way to the path; and on
success the path is a directory. -/
theorem osMkdirAll_spec (perm : Nat) (p : PathName) :
    ∀ (fs fs1 : FS) (err : Option GoError), osMkdirAll fs p perm = (fs1, err) →
      (∀ x w, resolve fs x = .ok w → ∃ w1, resolve fs1 x = .ok w1 ∧ w1.forget = w.forget) ∧
      (∀ x w1, resolve fs1 x = .ok w1 →
        (∃ w, resolve fs x = .ok w) ∨ (w1.isDir = true ∧ x.isUnder p = true)) ∧
      (err = none → ∃ b, resolve fs1 p = .ok (.dir b)) := by
  have hid : ∀ fs : FS,
      (∀ x w, resolve fs x = .ok w → ∃ w1, resolve fs x = .ok w1 ∧ w1.forget = w.forget) ∧
      (∀ x w1, resolve fs x = .ok w1 →
        (∃ w, resolve fs x = .ok w) ∨ (w1.isDir = true ∧ x.isUnder p = true)) :=
    fun fs => ⟨fun x w hx => ⟨w, hx, rfl⟩, fun x w1 hx => Or.inl ⟨w1, hx⟩⟩
  induction p with
  | root =>
    intro fs fs1 err h
    obtain ⟨c, hc⟩ := resolve_root_isDir fs
    simp only [osMkdirAll, osStat, hc, statOf, if_true, Prod.mk.injEq] at h
    obtain ⟨h1, h2⟩ := h
    subst h1
    exact ⟨fun x w hx => ⟨w, hx, rfl⟩, fun x w1 hx => Or.inl ⟨w1, hx⟩, fun _ => ⟨c, hc⟩⟩
  | child q n ih =>
    intro fs fs1 err h
    simp only [osMkdirAll] at h
    cases hr : resolve fs (.child q n) with
    | ok v =>
      cases v with
      | file a d =>
        simp only [osStat, hr, statOf, Bool.false_eq_true, if_false, Prod.mk.injEq] at h
        obtain ⟨h1, h2⟩ := h
        subst h1
        subst h2
        exact ⟨(hid fs).1, (hid fs).2, fun h3 => by cases h3⟩
      | dir a =>
        simp only [osStat, hr, statOf, if_true, Prod.mk.injEq] at h
        obtain ⟨h1, h2⟩ := h
        subst h1
        exact ⟨(hid fs).1, (hid fs).2, fun _ => ⟨a, hr⟩⟩
    | error e =>
      simp only [osStat, hr] at h
      cases hm : osMkdirAll fs q perm with
      | mk fs0 err0 =>
        obtain ⟨hP1, hP2, hdir0⟩ := ih
          (fun fs => ⟨fun x w hx => ⟨w, hx, rfl⟩, fun x w1 hx => Or.inl ⟨w1, hx⟩⟩) fs fs0 err0 hm
        have hP2w : ∀ x w1, resolve fs0 x = .ok w1 →
            (∃ w, resolve fs x = .ok w) ∨ (w1.isDir = true ∧ x.isUnder (.child q n) = true) := by
          intro x w1 hx
          rcases hP2 x w1 hx with h1 | ⟨h1, h2⟩
          · exact Or.inl h1
          · exact Or.inr ⟨h1, isUnder_parent h2⟩
        cases err0 with
        | some e0 =>
          simp only [hm, Prod.mk.injEq] at h
          obtain ⟨h1, h2⟩ := h
          subst h1
          subst h2
          exact ⟨hP1, hP2w, fun h3 => by cases h3⟩
        | none =>
          simp only [hm] at h
          cases hk : osMkdir fs0 (.child q n) perm with
          | mk fs2 err2 =>
            cases err2 with
            | none =>
              simp only [hk, Prod.mk.injEq] at h
              obtain ⟨h1, h2⟩ := h
              subst h1
              subst h2
              obtain ⟨hd, hout, hin⟩ := osMkdir_ok fs0 fs2 _ perm hk
              have hstep : ∀ x w0, resolve fs0 x = .ok w0 →
                  ∃ w1, resolve fs2 x = .ok w1 ∧ w1.forget = w0.forget := by
                intro x w0 hx
                have hu : (PathName.child q n).isUnder x = false := by
                  cases hu : (PathName.child q n).isUnder x
                  · rfl
                  · exact absurd hx ((hin x hu).1 w0)
                exact forgetRes_ok (hout x hu) hx
              refine ⟨?_, ?_, fun _ => hd⟩
              · intro x w hx
                obtain ⟨w0, h0, h0f⟩ := hP1 x w hx
                obtain ⟨w1, h1, h1f⟩ := hstep x w0 h0
                exact ⟨w1, h1, h1f.trans h0f⟩
              · intro x w1 hx
                cases hu : (PathName.child q n).isUnder x
                · obtain ⟨w0, h0, h0f⟩ := forgetRes_ok (hout x hu).symm hx
                  rcases hP2w x w0 h0 with h3 | ⟨h3, h4⟩
                  · exact Or.inl h3
                  · rw [← forget_isDir, h0f, forget_isDir] at h3
                    exact Or.inr ⟨h3, h4⟩
                · have hxp := (hin x hu).2 w1 hx
                  subst hxp
                  obtain ⟨b, hb⟩ := hd
                  rw [hb] at hx
                  cases hx
                  exact Or.inr ⟨rfl, isUnder_refl _⟩
            | some e2 =>
              have h0 := osMkdir_fail fs0 fs2 _ perm e2 hk
              subst h0
              simp only [hk, osLstat, osStat] at h
              cases hr2 : resolve fs2 (.child q n) with
              | error e3 =>
                simp only [hr2, Prod.mk.injEq] at h
                obtain ⟨h1, h2⟩ := h
                subst h1
                subst h2
                exact ⟨hP1, hP2w, fun h3 => by cases h3⟩
              | ok v2 =>
                simp only [hr2] at h
                cases v2 with
                | file a2 d2 =>
                  simp only [statOf, Bool.false_eq_true, if_false, Prod.mk.injEq] at h
                  obtain ⟨h1, h2⟩ := h
                  subst h1
                  subst h2
                  exact ⟨hP1, hP2w, fun h3 => by cases h3⟩
                | dir a2 =>
                  simp only [statOf, if_true, Prod.mk.injEq] at h
                  obtain ⟨h1, h2⟩ := h
                  subst h1
                  exact ⟨hP1, hP2w, fun _ => ⟨a2, hr2⟩⟩

/-- A regular file that existed before `os.MkdirAll` is unchanged after it. -/
theorem osMkdirAll_keeps_file (perm : Nat) (p : PathName) (fs fs1 : FS) (err : Option GoError)
    (h : osMkdirAll fs p perm = (fs1, err)) {x : PathName} {a : Attr} {d : Bytes}
    (hx : resolve fs x = .ok (.file a d)) : resolve fs1 x = .ok (.file a d) := by
  obtain ⟨w1, h1, h2⟩ := (osMkdirAll_spec perm p fs fs1 err h).1 x _ hx
  rw [h1, forget_eq_file h2]

/-! ## Renaming -/

theorem rebase_under (old new : PathName) {k : PathName} (h : old.isUnder k = true) :
    new.isUnder (PathName.rebase old new k) = true := by
  induction k with
  | root => simp [PathName.rebase, isUnder_refl]
  | child q n ih =>
    simp only [PathName.rebase]
    by_cases hk : PathName.child q n = old
    · simp [hk, isUnder_refl]
    · simp only [hk, if_false]
      rcases (isUnder_child_iff old q n).1 h with h1 | h1
      · exact absurd h1.symm hk
      · exact isUnder_parent (ih h1)

theorem rebase_eq_new_iff (old new : PathName) {k : PathName} (h : old.isUnder k = true) :
    PathName.rebase old new k = new ↔ k = old := by
  cases k with
  | root =>
    have := (isUnder_root_iff old).1 h
    simp [PathName.rebase, this]
  | child q n =>
    simp only [PathName.rebase]
    by_cases hk : PathName.child q n = old
    · simp [hk]
    · simp only [hk, if_false, iff_false]
      rcases (isUnder_child_iff old q n).1 h with h1 | h1
      · exact absurd h1.symm hk
      · intro he
        have hd := isUnder_depth (rebase_under old new h1)
        have hd2 := congrArg PathName.depth he
        simp only [PathName.depth] at hd2
        omega

theorem lookup_append (q : PathName) (l1 l2 : List (PathName × Node)) :
    lookup q (l1 ++ l2) = (lookup q l1).orElse (fun _ => lookup q l2) := by
  induction l1 with
  | nil => simp [lookup]
  | cons e es ih =>
    by_cases hk : e.1 = q
    · simp [lookup, hk]
    · simp [lookup, hk, ih]

theorem lookup_moved_off (old new q : PathName) (es : List (PathName × Node))
    (hq : new.isUnder q = false) :
    lookup q ((es.filter (fun e => old.isUnder e.1)).map
      (fun e => (PathName.rebase old new e.1, e.2))) = none := by
  induction es with
  | nil => simp [lookup]
  | cons e es ih =>
    by_cases hu : old.isUnder e.1 = true
    · have hne : PathName.rebase old new e.1 ≠ q := by
        intro he
        rw [← he, rebase_under old new hu] at hq
        cases hq
      simp [List.filter_cons, hu, lookup, hne, ih]
    · simp [List.filter_cons, hu, ih]

theorem lookup_moved_new (old new : PathName) (es : List (PathName × Node)) :
    lookup new ((es.filter (fun e => old.isUnder e.1)).map
      (fun e => (PathName.rebase old new e.1, e.2))) = lookup old es := by
  induction es with
  | nil => simp [lookup]
  | cons e es ih =>
    by_cases hu : old.isUnder e.1 = true
    · by_cases hk : e.1 = old
      · have hreb := (rebase_eq_new_iff old new hu).2 hk
        simp only [List.filter_cons, hu, if_true, List.map_cons, lookup, hreb]
        simp [hk]
      · have hne : PathName.rebase old new e.1 ≠ new :=
          fun he => hk ((rebase_eq_new_iff old new hu).1 he)
        simp [List.filter_cons, hu, lookup, hk, hne, ih]
    · have hk : e.1 ≠ old := by
        intro he
        rw [he, isUnder_refl] at hu
        exact hu rfl
      simp [List.filter_cons, hu, lookup, hk, ih]

theorem lookup_renameEntries_new (old new : PathName) (es : List (PathName × Node)) :
    lookup new (renameEntries old new es) = lookup old es := by
  rw [renameEntries, lookup_append, lookup_moved_new, lookup_purge]
  simp only [isUnder_refl, if_true]
  cases lookup old es <;> rfl

theorem lookup_renameEntries_off (old new q : PathName) (es : List (PathName × Node))
    (hq : new.isUnder q = false) :
    lookup q (renameEntries old new es) = if old.isUnder q = true then none else lookup q es := by
  rw [renameEntries, lookup_append, lookup_moved_off old new q es hq, lookup_purge, lookup_purge]
  simp [hq]

/-- What `os.Rename` did when it moved a regular file to another path. -/
theorem osRename_file_ok (fs fs1 : FS) (src dst : PathName) (a : Attr) (d : Bytes)
    (hsrc : resolve fs src = .ok (.file a d)) (hne : src ≠ dst)
    (h : osRename fs src dst = (fs1, none)) :
    fs1.entries = renamed fs src dst ∧
    (∃ b, resolve fs (filepathDir dst) = .ok (.dir b)) ∧
    (∀ b, resolve fs dst ≠ .ok (.dir b)) := by
  have hsys : sysRename fs src dst = (fs1, none) ∧ ∀ b, resolve fs dst ≠ .ok (.dir b) := by
    unfold osRename osLstat osStat at h
    cases hr : resolve fs dst with
    | error e =>
      simp only [hr] at h
      exact ⟨h, fun b hb => by cases hb⟩
    | ok v =>
      cases v with
      | file a1 d1 =>
        simp only [hr, statOf, Bool.false_eq_true, if_false] at h
        exact ⟨h, fun b hb => by cases hb⟩
      | dir b1 =>
        simp only [hr, hsrc, statOf, if_true] at h
        cases h
  obtain ⟨hs, hnd⟩ := hsys
  refine ⟨?_, ?_, hnd⟩
  · unfold sysRename at hs
    simp only [hsrc] at hs
    split at hs
    · simp at hs
    · simp at hs
    · simp only [hne, if_false, Node.isDir, Bool.false_and, Bool.false_eq_true] at hs
      split at hs
      · simp at hs
      · split at hs
        · simp at hs
        · simp at hs
        · split at hs
          · simp at hs
          · simp only [Prod.mk.injEq, and_true] at hs
            rw [← hs]
        · simp only [Prod.mk.injEq, and_true] at hs
          rw [← hs]
        · simp only [Prod.mk.injEq, and_true] at hs
          rw [← hs]
  · unfold sysRename at hs
    simp only [hsrc] at hs
    split at hs
    · simp at hs
    · simp at hs
    · rename_i b hb
      exact ⟨b, hb⟩

/-- The state after a regular file was renamed: the file is at the new path,
nothing is at the old one, and every directory that existed is still one. -/
theorem rename_file_result (fs fs1 : FS) (src dst : PathName) (a : Attr) (d : Bytes)
    (hsrc : resolve fs src = .ok (.file a d)) (hne : src ≠ dst)
    (he : fs1.entries = renamed fs src dst)
    (hpar : ∃ b, resolve fs (filepathDir dst) = .ok (.dir b))
    (hnd : ∀ b, resolve fs dst ≠ .ok (.dir b)) :
    resolve fs1 dst = .ok (.file a d) ∧ resolve fs1 src = .error .ENOENT ∧
    (∀ x u, resolve fs x = .ok (.dir u) → ∃ u1, resolve fs1 x = .ok (.dir u1)) := by
  -- a directory that resolves lies neither below `src` nor below `dst`
  have hdirs : ∀ x u, resolve fs x = .ok (.dir u) →
      src.isUnder x = false ∧ dst.isUnder x = false := by
    intro x u hx
    constructor
    · cases hu : src.isUnder x
      · rfl
      · rcases resolve_ancestor hx hu with h1 | ⟨b, hb⟩
        · rw [h1, hx] at hsrc
          cases hsrc
        · rw [hb] at hsrc
          cases hsrc
    · cases hu : dst.isUnder x
      · rfl
      · rcases resolve_ancestor hx hu with h1 | ⟨b, hb⟩
        · rw [← h1] at hx
          exact absurd hx (hnd u)
        · exact absurd hb (hnd b)
  have hfr := frame fs fs1 (fun y => src.isUnder y = true ∨ dst.isUnder y = true)
    (fun a1 y hay ha => by
      rcases ha with ha | ha
      · exact Or.inl (isUnder_trans ha hay)
      · exact Or.inr (isUnder_trans ha hay))
    (fun y hy => by
      have hy1 : src.isUnder y = false := by
        cases h : src.isUnder y
        · rfl
        · exact absurd (Or.inl h) hy
      have hy2 : dst.isUnder y = false := by
        cases h : dst.isUnder y
        · rfl
        · exact absurd (Or.inr h) hy
      rw [he, renamed]
      rcases lookup_touchParent fs src y
          (touchParent fs dst (renameEntries src dst fs.entries)) with h | ⟨b, hb, h⟩
      · rcases lookup_touchParent fs dst y (renameEntries src dst fs.entries) with h1 | ⟨b, hb, h1⟩
        · left
          rw [h, h1, lookup_renameEntries_off _ _ _ _ hy2]
          simp [hy1]
        · right
          exact ⟨b, hb, by rw [h, h1]⟩
      · right
        exact ⟨b, hb, h⟩)
  have hkeep : ∀ x u, resolve fs x = .ok (.dir u) → ∃ u1, resolve fs1 x = .ok (.dir u1) := by
    intro x u hx
    have hx1 := hdirs x u hx
    exact forgetRes_dir (hfr x (by simp [hx1.1, hx1.2])).1 hx
  obtain ⟨qs, ns, rfl⟩ := resolve_file_not_root hsrc
  obtain ⟨⟨bs, hqs⟩, hls⟩ := resolve_child_ok hsrc
  obtain ⟨bd, hqd⟩ := hpar
  cases dst with
  | root =>
    obtain ⟨c, hc⟩ := resolve_root_isDir fs
    exact absurd hc (hnd c)
  | child qd nd =>
    simp only [filepathDir] at hqd
    have hds : (PathName.child qd nd).isUnder (PathName.child qs ns) = false := by
      cases hu : (PathName.child qd nd).isUnder (PathName.child qs ns)
      · rfl
      · rcases resolve_ancestor hsrc hu with h1 | ⟨b, hb⟩
        · exact absurd h1.symm hne
        · exact absurd hb (hnd b)
    have hd1 : PathName.child qd nd ≠ filepathDir (.child qs ns) := by
      intro h
      simp only [filepathDir] at h
      rw [← h] at hqs
      exact hnd bs hqs
    have hd2 : PathName.child qd nd ≠ filepathDir (.child qd nd) := child_ne_self qd nd
    have hs1 : PathName.child qs ns ≠ filepathDir (.child qs ns) := child_ne_self qs ns
    have hs2 : PathName.child qs ns ≠ filepathDir (.child qd nd) := by
      intro h
      simp only [filepathDir] at h
      rw [h, hqd] at hsrc
      cases hsrc
    obtain ⟨u1, hu1⟩ := hkeep qd bd hqd
    obtain ⟨u2, hu2⟩ := hkeep qs bs hqs
    refine ⟨?_, ?_, hkeep⟩
    · rw [resolve_child_of_dir nd hu1, he, renamed, lookup_touchParent_ne _ _ _ _ hd1,
        lookup_touchParent_ne _ _ _ _ hd2, lookup_renameEntries_new, hls]
    · rw [resolve_child_of_dir ns hu2, he, renamed, lookup_touchParent_ne _ _ _ _ hs1,
        lookup_touchParent_ne _ _ _ _ hs2, lookup_renameEntries_off _ _ _ _ hds]
      simp [isUnder_refl]

/-! ## Failing calls -/

/-- Whatever `os.OpenFile` returns, every path outside the subtree of the opened
path is as before, up to the stamp on the directory holding the path. -/
theorem osOpenFile_frame (fs fs1 : FS) (p : PathName) (flag : OpenFlags) (perm : Nat)
    (r : Except GoError File) (h : osOpenFile fs p flag perm = (fs1, r))
    (x : PathName) (hx : p.isUnder x = false) :
    forgetRes (resolve fs1 x) = forgetRes (resolve fs x) ∧
    (x ≠ filepathDir p → resolve fs1 x = resolve fs x) := by
  have hsame : (∀ y, p.isUnder y = false → lookup y fs1.entries = lookup y fs.entries) →
      forgetRes (resolve fs1 x) = forgetRes (resolve fs x) ∧
      (x ≠ filepathDir p → resolve fs1 x = resolve fs x) := by
    intro hl
    have := resolve_off fs fs1 p hl x hx
    exact ⟨by rw [this], fun _ => this⟩
  unfold osOpenFile at h
  split at h
  · split at h <;> simp only [Prod.mk.injEq] at h <;> rw [← h.1] <;>
      exact ⟨rfl, fun _ => rfl⟩
  · split at h
    · simp only [Prod.mk.injEq] at h
      apply hsame
      intro y hy
      rw [← h.1]
      exact lookup_put_off _ _ _ _ hy
    · simp only [Prod.mk.injEq] at h
      rw [← h.1]
      exact ⟨rfl, fun _ => rfl⟩
  · split at h
    · split at h
      · simp only [Prod.mk.injEq] at h
        apply touch_purge_frame fs fs1 p _ x hx
        intro y hy
        rw [← h.1]
        exact lookup_put_off _ _ _ _ hy
      · simp only [Prod.mk.injEq] at h
        rw [← h.1]
        exact ⟨rfl, fun _ => rfl⟩
    · simp only [Prod.mk.injEq] at h
      rw [← h.1]
      exact ⟨rfl, fun _ => rfl⟩
  · simp only [Prod.mk.injEq] at h
    rw [← h.1]
    exact ⟨rfl, fun _ => rfl⟩

theorem osOpenFile_fail (fs fs1 : FS) (p : PathName) (flag : OpenFlags) (perm : Nat)
    (e : GoError) (h : osOpenFile fs p flag perm = (fs1, .error e)) : fs1 = fs := by
  unfold osOpenFile at h
  split at h
  · split at h <;> simp at h
    exact h.1.symm
  · split at h <;> simp at h
  · split at h
    · split at h
      · simp at h
      · simp at h
        exact h.1.symm
    · simp at h
      exact h.1.symm
  · simp at h
    exact h.1.symm

/-- Whatever a write returns, it changed the table only at the written path. -/
theorem fileWrite_confined (fs fs1 : FS) (f : File) (data : Bytes) (err : Option GoError)
    (h : fileWrite fs f data = (fs1, err)) :
    ∀ x, f.path.isUnder x = false → lookup x fs1.entries = lookup x fs.entries := by
  intro x hx
  unfold fileWrite at h
  split at h
  · simp only [Prod.mk.injEq] at h
    rw [← h.1]
    exact lookup_put_off _ _ _ _ hx
  · simp only [Prod.mk.injEq] at h
    rw [← h.1]

theorem sysRmdir_fail (fs fs1 : FS) (p : PathName) (e : GoError)
    (h : sysRmdir fs p = (fs1, some e)) : fs1 = fs := by
  unfold sysRmdir at h
  split at h
  · simp at h
    exact h.1.symm
  · simp at h
    exact h.1.symm
  · split at h
    · simp at h
      exact h.1.symm
    · split at h <;> simp at h
      exact h.1.symm

theorem osRemove_fail (fs fs1 : FS) (p : PathName) (e : GoError)
    (h : osRemove fs p = (fs1, some e)) : fs1 = fs := by
  unfold osRemove at h
  split at h
  · simp at h
  · rename_i fs0 e0 hu
    have h0 := sysUnlink_fail fs fs0 p e0 hu
    subst h0
    split at h
    · simp at h
    · rename_i fs2 e1 hrm
      have h2 := sysRmdir_fail fs0 fs2 p e1 hrm
      simp only [Prod.mk.injEq] at h
      rw [← h.1, h2]

theorem sysRename_fail (fs fs1 : FS) (p q : PathName) (e : GoError)
    (h : sysRename fs p q = (fs1, some e)) : fs1 = fs := by
  unfold sysRename at h
  split at h
  · simp at h
    exact h.1.symm
  · split at h
    · simp at h
      exact h.1.symm
    · simp at h
      exact h.1.symm
    · split at h
      · simp at h
      · split at h
        · simp at h
          exact h.1.symm
        · split at h
          · simp at h
            exact h.1.symm
          · split at h
            · simp at h
              exact h.1.symm
            · simp at h
              exact h.1.symm
            · split at h <;> simp at h
              exact h.1.symm
            · simp at h
            · simp at h

theorem osRename_fail (fs fs1 : FS) (p q : PathName) (e : GoError)
    (h : osRename fs p q = (fs1, some e)) : fs1 = fs := by
  unfold osRename at h
  split at h
  · split at h
    · split at h <;> simp at h <;> exact h.1.symm
    · exact sysRename_fail fs fs1 p q e h
  · exact sysRename_fail fs fs1 p q e h

/-! ## Copying -/

theorem outsideUnchanged_refl (fs : FS) (p : PathName) : OutsideUnchanged fs fs p :=
  fun _ _ => ⟨rfl, fun _ => rfl⟩

theorem keepsFileAttr_refl (fs : FS) (p : PathName) : KeepsFileAttr fs fs p :=
  fun a d h => ⟨a, d, h, rfl, rfl, rfl⟩

/-- A successful `os.OpenFile` for writing keeps the mode, owner and group of a
regular file that was at the path. -/
theorem osOpenFile_write_attr (fs fs1 : FS) (p : PathName) (flag : OpenFlags) (perm : Nat)
    (r : Except GoError File) (h : osOpenFile fs p flag perm = (fs1, r)) :
    KeepsFileAttr fs fs1 p := by
  intro a d hr
  obtain ⟨q, n, rfl⟩ := resolve_file_not_root hr
  obtain ⟨⟨b, hq⟩, -⟩ := resolve_child_ok hr
  simp only [osOpenFile, hr] at h
  split at h
  · simp only [Prod.mk.injEq] at h
    obtain ⟨h1, -⟩ := h
    subst h1
    exact ⟨_, _, resolve_put_self fs _ q n _ b fs.entries rfl (fun _ _ => rfl) hq,
      rfl, rfl, rfl⟩
  · simp only [Prod.mk.injEq] at h
    rw [← h.1]
    exact ⟨a, d, hr, rfl, rfl, rfl⟩

/-- What a write leaves in the file, whatever it reports: `k` of the bytes were
written, all of them exactly when no error is reported. -/
theorem fileWrite_result (fs fs2 : FS) (p : PathName) (app : Bool) (a : Attr) (old data : Bytes)
    (err : Option GoError) (hr : resolve fs p = .ok (.file a old))
    (h : fileWrite fs ⟨p, app⟩ data = (fs2, err)) :
    ∃ a1 k, k ≤ data.length ∧ (err = none → k = data.length) ∧
      (err ≠ none → k < data.length) ∧
      resolve fs2 p = .ok (.file a1
        (if app = true then old ++ data.take k else data.take k ++ old.drop k)) ∧
      a1.mode = a.mode ∧ a1.uid = a.uid ∧ a1.gid = a.gid := by
  obtain ⟨q, n, rfl⟩ := resolve_file_not_root hr
  obtain ⟨⟨b, hq⟩, hl⟩ := resolve_child_ok hr
  simp only [fileWrite, hl, Prod.mk.injEq] at h
  obtain ⟨h1, h2⟩ := h
  refine ⟨_, min data.length ((blocksOf old.length + fs.free) * blockSize
      - if app = true then old.length else 0), min_le_left _ _, ?_, ?_,
    resolve_put_self fs fs2 q n _ b fs.entries (by rw [← h1]) (fun _ _ => rfl) hq, ?_, ?_, ?_⟩
  · intro he
    rw [he] at h2
    by_contra hne
    have hlt := lt_of_le_of_ne (min_le_left data.length
      ((blocksOf old.length + fs.free) * blockSize - if app = true then old.length else 0)) hne
    simp [hlt] at h2
  · intro he
    by_contra hge
    simp [hge] at h2
    exact he h2.symm
  · split_ifs <;> rfl
  · split_ifs <;> rfl
  · split_ifs <;> rfl

theorem osOpenFile_path (fs fs1 : FS) (p : PathName) (flag : OpenFlags) (perm : Nat)
    (f : File) (h : osOpenFile fs p flag perm = (fs1, .ok f)) : f = ⟨p, flag.append⟩ := by
  unfold osOpenFile at h
  split at h
  · split at h
    · simp at h
    · simp only [Prod.mk.injEq, Except.ok.injEq] at h
      exact h.2.symm
  · split at h <;> simp only [Prod.mk.injEq, Except.ok.injEq] at h <;> exact h.2.symm
  · split at h
    · split at h
      · simp only [Prod.mk.injEq, Except.ok.injEq] at h
        exact h.2.symm
      · simp at h
    · simp at h
  · simp at h

/-- The state after a write differs from the state before it at most at the
written path. -/
theorem fileWrite_outside (fs fs1 : FS) (p : PathName) (app : Bool) (data : Bytes)
    (err : Option GoError) (h : fileWrite fs ⟨p, app⟩ data = (fs1, err))
    (x : PathName) (hx : p.isUnder x = false) : resolve fs1 x = resolve fs x :=
  resolve_off fs fs1 p (fileWrite_confined fs fs1 ⟨p, app⟩ data err h) x hx

/-- What a failing `AppendToFile` leaves. -/
theorem appendToFile_fail (fs fs1 : FS) (p : PathName) (c : Bytes) (e : GoError)
    (h : AppendToFile fs p c = (fs1, some e)) :
    (fs1 = fs ∨ ∃ k, k < c.length ∧
      readFile fs1 p = some ((readFile fs p).getD [] ++ c.take k)) ∧
    KeepsFileAttr fs fs1 p ∧ OutsideUnchanged fs fs1 p := by
  unfold AppendToFile at h
  split at h
  · rename_i fs0 err ho
    simp only [Prod.mk.injEq] at h
    have := osOpenFile_fail fs fs0 p _ _ err ho
    rw [← h.1, this]
    exact ⟨Or.inl rfl, keepsFileAttr_refl fs p, outsideUnchanged_refl fs p⟩
  · rename_i fs0 file ho
    have hf := osOpenFile_path fs fs0 p _ _ file ho
    subst hf
    obtain ⟨-, a0, hr0⟩ := osOpenFile_write_ok fs fs0 p _ _ _ rfl ho
    simp only [Bool.false_eq_true, if_false] at hr0
    simp only [fileWriteString, fileClose, Prod.mk.injEq] at h
    have hwr : fileWrite fs0 ⟨p, true⟩ c = (fs1, some e) := Prod.ext h.1 h.2
    obtain ⟨a1, k, -, -, hlt, hr1, hm, hu, hg⟩ :=
      fileWrite_result fs0 fs1 p true a0 _ c (some e) hr0 hwr
    simp only [if_true] at hr1
    refine ⟨Or.inr ⟨k, hlt (by simp), readFile_of_resolve hr1⟩, ?_, ?_⟩
    · intro a d hpd
      obtain ⟨a2, d2, hr2, hm2, hu2, hg2⟩ := osOpenFile_write_attr fs fs0 p _ _ _ ho a d hpd
      rw [hr0] at hr2
      simp only [Except.ok.injEq, Node.file.injEq] at hr2
      obtain ⟨ha, -⟩ := hr2
      subst ha
      exact ⟨_, _, hr1, hm.trans hm2, hu.trans hu2, hg.trans hg2⟩
    · intro x hx
      rw [fileWrite_outside fs0 fs1 p true c _ hwr x hx]
      exact osOpenFile_frame fs fs0 p _ _ _ ho x hx

/-- What a failing `CreateFileWithContent` leaves. -/
theorem createFileWithContent_fail (fs fs1 : FS) (p : PathName) (c : Bytes) (e : GoError)
    (h : CreateFileWithContent fs p c = (fs1, some e)) :
    (fs1 = fs ∨ ∃ k, k ≤ c.length ∧ readFile fs1 p = some (c.take k)) ∧
    KeepsFileAttr fs fs1 p ∧ OutsideUnchanged fs fs1 p := by
  unfold CreateFileWithContent osWriteFile at h
  split at h
  · rename_i fs0 err ho
    simp only [Prod.mk.injEq] at h
    have := osOpenFile_fail fs fs0 p _ _ err ho
    rw [← h.1, this]
    exact ⟨Or.inl rfl, keepsFileAttr_refl fs p, outsideUnchanged_refl fs p⟩
  · rename_i fs0 file ho
    have hf := osOpenFile_path fs fs0 p _ _ file ho
    subst hf
    obtain ⟨-, a0, hr0⟩ := osOpenFile_write_ok fs fs0 p _ _ _ rfl ho
    simp only [if_true] at hr0
    simp only [fileClose, Prod.mk.injEq] at h
    have hwr : fileWrite fs0 ⟨p, false⟩ c = (fs1, (fileWrite fs0 ⟨p, false⟩ c).2) :=
      Prod.ext h.1 rfl
    obtain ⟨a1, k, hk, -, -, hr1, hm, hu, hg⟩ :=
      fileWrite_result fs0 fs1 p false a0 _ c _ hr0 hwr
    simp only [Bool.false_eq_true, if_false, List.drop_nil, List.append_nil] at hr1
    refine ⟨Or.inr ⟨k, hk, readFile_of_resolve hr1⟩, ?_, ?_⟩
    · intro a d hpd
      obtain ⟨a2, d2, hr2, hm2, hu2, hg2⟩ := osOpenFile_write_attr fs fs0 p _ _ _ ho a d hpd
      rw [hr0] at hr2
      simp only [Except.ok.injEq, Node.file.injEq] at hr2
      obtain ⟨ha, -⟩ := hr2
      subst ha
      exact ⟨_, _, hr1, hm.trans hm2, hu.trans hu2, hg.trans hg2⟩
    · intro x hx
      rw [fileWrite_outside fs0 fs1 p false c _ hwr x hx]
      exact osOpenFile_frame fs fs0 p _ _ _ ho x hx

/-- What a failing `CreateEmptyFile` leaves. -/
theorem createEmptyFile_fail (fs fs1 : FS) (p : PathName) (e : GoError)
    (h : CreateEmptyFile fs p = (fs1, some e)) :
    (fs1 = fs ∨ readFile fs1 p = some []) ∧
    KeepsFileAttr fs fs1 p ∧ OutsideUnchanged fs fs1 p := by
  unfold CreateEmptyFile at h
  split at h
  · rename_i fs0 err ho
    simp only [Prod.mk.injEq] at h
    have := osOpenFile_fail fs fs0 p _ _ err ho
    rw [← h.1, this]
    exact ⟨Or.inl rfl, keepsFileAttr_refl fs p, outsideUnchanged_refl fs p⟩
  · rename_i fs0 file ho
    obtain ⟨-, a0, hr0⟩ := osOpenFile_write_ok fs fs0 p _ _ _ rfl ho
    simp only [if_true] at hr0
    simp only [fileClose, Prod.mk.injEq] at h
    rw [← h.1]
    exact ⟨Or.inr (readFile_of_resolve hr0), osOpenFile_write_attr fs fs0 p _ _ _ ho,
      fun x hx => osOpenFile_frame fs fs0 p _ _ _ ho x hx⟩

theorem syscallMode_mod (i : Nat) : syscallMode i % 512 = i % 512 := by
  unfold syscallMode
  split_ifs <;> omega

theorem fileModeOf_mod (u : Nat) (isDir : Bool) : fileModeOf u isDir % 512 = u % 512 := by
  unfold fileModeOf ModeSetuid ModeSetgid ModeSticky ModeDir
  split_ifs <;> omega

/-- A copy between two different paths that reports no error leaves at the
destination a file with the content of the source and its mode bits, and leaves
the source as it was. -/
theorem copyFile_distinct (fs fs1 : FS) (src dst : PathName) (a : Attr) (d : Bytes)
    (hsrc : resolve fs src = .ok (.file a d)) (hne : src ≠ dst)
    (h : CopyFile fs src dst = (fs1, none)) :
    ∃ a1, resolve fs1 dst = .ok (.file a1 d) ∧ a1.mode % 512 = a.mode % 512 ∧
      resolve fs1 src = .ok (.file a d) := by
  unfold CopyFile at h
  simp only [osOpen, osOpenFile, hsrc, Bool.false_and, Bool.false_eq_true, if_false,
    fileClose] at h
  cases hm : osMkdirAll fs (filepathDir dst) 0o755 with
  | mk fsA errA =>
    have hsrcA := osMkdirAll_keeps_file _ _ fs fsA errA hm hsrc
    cases errA with
    | some e0 => simp [hm] at h
    | none =>
      simp only [hm] at h
      cases hc : osCreate fsA dst with
      | mk fsB r =>
        cases r with
        | error e1 => simp [hc] at h
        | ok dstf =>
          simp only [hc] at h
          obtain ⟨hf, aB, hdstB⟩ := osOpenFile_write_ok fsA fsB dst _ _ dstf rfl hc
          subst hf
          simp only [if_true] at hdstB
          have hoff : dst.isUnder src = false := by
            cases hu : dst.isUnder src
            · rfl
            · rcases resolve_ancestor hsrcA hu with h1 | ⟨b, hb⟩
              · exact absurd h1.symm hne
              · simp [osCreate, osOpenFile, hb] at hc
          have hsrcB : resolve fsB src = .ok (.file a d) :=
            forgetRes_file (osOpenFile_frame fsA fsB dst _ _ _ hc src hoff).1 hsrcA
          obtain ⟨qs, ns, rfl⟩ := resolve_file_not_root hsrc
          have hlB := (resolve_child_ok hsrcB).2
          simp only [ioCopy, hlB] at h
          cases hw : fileWrite fsB ⟨dst, false⟩ d with
          | mk fsC errC =>
            cases errC with
            | some e2 => simp [hw] at h
            | none =>
              simp only [hw] at h
              obtain ⟨aC, hdstC⟩ := fileWrite_ok fsB fsC dst false aB [] d hdstB hw
              simp only [Bool.false_eq_true, if_false, List.drop_nil, List.append_nil] at hdstC
              have hconfC := fileWrite_confined fsB fsC ⟨dst, false⟩ d none hw
              have hsrcC : resolve fsC (.child qs ns) = .ok (.file a d) := by
                rw [← hsrcB]
                exact resolve_off fsB fsC dst hconfC _ hoff
              simp only [osStat, hsrcC, statOf, osChmod, hdstC, Node.setAttr, Node.attr,
                Prod.mk.injEq, and_true] at h
              obtain ⟨qd, nd, rfl⟩ := resolve_file_not_root hdstC
              obtain ⟨⟨bd, hqd⟩, -⟩ := resolve_child_ok hdstC
              refine ⟨_, resolve_put_self fsC fs1 qd nd _ bd fsC.entries (by rw [← h])
                (fun _ _ => rfl) hqd, ?_, ?_⟩
              · simp only [syscallMode_mod, fileModeOf_mod]
              · rw [← hsrcC]
                exact resolve_put_other fsC fs1 (.child qd nd) _ fsC.entries (by rw [← h])
                  (fun _ _ => rfl) _ hoff

/-- The walk of `ListFilesRecursive` never reaches its depth bound. -/
theorem listFilesRecursive_total (fs : FS) (p : PathName) :
    ∃ r, ListFilesRecursive fs p = some r := by
  cases hv : resolve fs p with
  | ok v =>
    obtain ⟨L, hL, -⟩ := listFilesRecursive_collects fs p v hv
    exact ⟨_, hL⟩
  | error e =>
    simp only [ListFilesRecursive, filepathWalk, osLstat, osStat, hv, listWalkFn]
    split <;> exact ⟨_, rfl⟩

/-! ## Claims on single files -/

/-- C1: `FileExists` returns (true, no error) when the stat succeeds, (false, no
error) when the stat fails with a not-exist error, and (false, err) with the
stat's own error when the stat fails for another reason; whatever error the
stat returns, one that is not a not-exist error is returned and not turned into
a plain false. -/
theorem C1_fileExists_three_cases (fs : FS) (p : PathName) :
    (∀ info, osStat fs p = .ok info → FileExists fs p = (true, none)) ∧
    (∀ err, osStat fs p = .error err → osIsNotExist err = true →
      FileExists fs p = (false, none)) ∧
    (∀ err, osStat fs p = .error err → osIsNotExist err = false →
      FileExists fs p = (false, some err)) ∧
    (∀ err, osIsNotExist err = false → fileExistsResult (some err) = (false, some err)) := by
  refine ⟨?_, ?_, ?_, ?_⟩
  · intro info h
    simp [FileExists, h, errOf, fileExistsResult]
  · intro err h he
    simp [FileExists, h, he, errOf, fileExistsResult]
  · intro err h he
    simp [FileExists, h, he, errOf, fileExistsResult]
  · intro err he
    simp [he, fileExistsResult]

theorem C1_fileExists_three_cases_witness :
    FileExists sampleFS aTxt = (true, none) ∧
    FileExists sampleFS (.child tmpDir "missing") = (false, none) ∧
    FileExists sampleFS (.child aTxt "x") = (false, some .ENOTDIR) ∧
    fileExistsResult (some .EACCES) = (false, some .EACCES) :=
  ⟨(C1_fileExists_three_cases sampleFS aTxt).1 _ rfl,
   (C1_fileExists_three_cases sampleFS (.child tmpDir "missing")).2.1 .ENOENT rfl rfl,
   (C1_fileExists_three_cases sampleFS (.child aTxt "x")).2.2.1 .ENOTDIR rfl rfl,
   (C1_fileExists_three_cases sampleFS aTxt).2.2.2 .EACCES rfl⟩

/-- C4: when two appends to `p` in a row both return no error, the content of
`p` is the old content (empty when `p` had no file) followed by the first and
then the second appended content. -/
theorem C4_append_twice_concatenates (fs fs1 fs2 : FS) (p : PathName) (c1 c2 : Bytes)
    (h1 : AppendToFile fs p c1 = (fs1, none)) (h2 : AppendToFile fs1 p c2 = (fs2, none)) :
    readFile fs2 p = some ((readFile fs p).getD [] ++ c1 ++ c2) := by
  rw [appendToFile_ok fs1 fs2 p c2 h2, appendToFile_ok fs fs1 p c1 h1]
  simp

theorem C4_append_twice_concatenates_witness :
    readFile (AppendToFile (AppendToFile sampleFS aTxt [33]).1 aTxt [34, 35]).1 aTxt
        = some ((readFile sampleFS aTxt).getD [] ++ [33] ++ [34, 35]) ∧
    readFile (AppendToFile (AppendToFile sampleFS (.child tmpDir "new") [33]).1
        (.child tmpDir "new") [34, 35]).1 (.child tmpDir "new")
        = some ((readFile sampleFS (.child tmpDir "new")).getD [] ++ [33] ++ [34, 35]) :=
  ⟨C4_append_twice_concatenates sampleFS _ _ aTxt [33] [34, 35] rfl rfl,
   C4_append_twice_concatenates sampleFS _ _ (.child tmpDir "new") [33] [34, 35] rfl rfl⟩

/-- C5: when `CreateFileWithContent(p, c)` returns no error, the file at `p`
reads back as exactly `c`, whatever was at `p` before. -/
theorem C5_create_with_content_reads_back (fs fs1 : FS) (p : PathName) (c : Bytes)
    (h : CreateFileWithContent fs p c = (fs1, none)) :
    readFile fs1 p = some c :=
  createFileWithContent_ok fs fs1 p c h

theorem C5_create_with_content_reads_back_witness :
    readFile sampleFS aTxt = some [104, 105] ∧
    readFile (CreateFileWithContent sampleFS aTxt [1, 2, 3]).1 aTxt = some [1, 2, 3] :=
  ⟨rfl, C5_create_with_content_reads_back sampleFS _ aTxt [1, 2, 3] rfl⟩

/-- C8: when `ClearFile(p)` returns no error on an existing file with non-empty
content, the file still exists with empty content, and a following
`GetFileInfo(p)` succeeds with `Size` 0 and `Path` equal to `p`. -/
theorem C8_clear_then_info (fs fs1 : FS) (p : PathName) (a : Attr) (d : Bytes)
    (hr : resolve fs p = .ok (.file a d)) (_hd : d ≠ [])
    (h : ClearFile fs p = (fs1, none)) :
    (∃ a1, resolve fs1 p = .ok (.file a1 [])) ∧
    ∃ info, GetFileInfo fs1 p = (some info, none) ∧ info.Size = 0 ∧ info.Path = p := by
  obtain ⟨q, n, rfl⟩ := resolve_file_not_root hr
  obtain ⟨⟨b, hq⟩, -⟩ := resolve_child_ok hr
  simp only [ClearFile, osTruncate0, hr, Prod.mk.injEq, and_true] at h
  have hr1 := resolve_put_self fs fs1 q n _ b fs.entries (by rw [← h]) (fun _ _ => rfl) hq
  refine ⟨⟨_, hr1⟩, ?_⟩
  simp [GetFileInfo, osStat, hr1, statOf]

theorem C8_clear_then_info_witness :
    (∃ a1, resolve (ClearFile sampleFS aTxt).1 aTxt = .ok (.file a1 [])) ∧
    ∃ info, GetFileInfo (ClearFile sampleFS aTxt).1 aTxt = (some info, none) ∧
      info.Size = 0 ∧ info.Path = aTxt :=
  C8_clear_then_info sampleFS _ aTxt ⟨0o600, 1, 1, 0⟩ [104, 105] rfl (by decide) rfl

/-- C9: after `DeleteFile(p)` returns no error, `FileExists(p)` returns (false,
no error); and `DeleteFile(p)` on a path where nothing exists returns a
not-exist error and does not succeed. -/
theorem C9_delete_then_exists (fs : FS) (p : PathName) :
    (∀ fs1, DeleteFile fs p = (fs1, none) → FileExists fs1 p = (false, none)) ∧
    (FileExists fs p = (false, none) →
      ∃ err, (DeleteFile fs p).2 = some err ∧ osIsNotExist err = true) := by
  constructor
  · intro fs1 h
    obtain ⟨q, n, a, rfl, hq, he⟩ := osRemove_ok fs fs1 p h
    exact fileExists_of_enoent (resolve_removed fs fs1 q n a hq he)
  · intro h
    refine ⟨.ENOENT, ?_, rfl⟩
    rw [deleteFile_missing fs p (resolve_of_fileExists_false h)]

theorem C9_delete_then_exists_witness :
    FileExists (DeleteFile sampleFS aTxt).1 aTxt = (false, none) ∧
    ∃ err, (DeleteFile sampleFS (.child tmpDir "missing")).2 = some err ∧
      osIsNotExist err = true :=
  ⟨(C9_delete_then_exists sampleFS aTxt).1 _ rfl,
   (C9_delete_then_exists sampleFS (.child tmpDir "missing")).2 rfl⟩

/-! ## Claims on listings -/

/-- C10: on a directory that can be read, `ListFiles` returns no error and a
list holding exactly once the path `dir` joined with the name of each immediate
child (file or directory) and nothing else; when the directory cannot be read
it returns the read error and no list. -/
theorem C10_listFiles_immediate_children (fs : FS) (dir : PathName) :
    (∀ a, resolve fs dir = .ok (.dir a) →
      ∃ files, ListFiles fs dir = (files, none) ∧ files.Nodup ∧
        ∀ q, q ∈ files ↔ ∃ n v, q = filepathJoin dir n ∧ resolve fs q = .ok v) ∧
    (∀ err, (osReadDir fs dir).2 = some err → ListFiles fs dir = ([], some err)) := by
  constructor
  · intro a h
    refine ⟨_, listFiles_of_dir fs dir a h, ?_, ?_⟩
    · apply List.Nodup.map _ (nodup_sortedNames dir fs.entries)
      intro x y hxy
      simp only [filepathJoin, PathName.child.injEq, true_and] at hxy
      exact hxy
    · intro q
      simp only [List.mem_map, mem_sortedNames]
      constructor
      · rintro ⟨n, ⟨v, hv⟩, rfl⟩
        refine ⟨n, v, rfl, ?_⟩
        simp only [filepathJoin]
        rw [resolve_child_of_dir n h, hv]
      · rintro ⟨n, v, rfl, hv⟩
        exact ⟨n, ⟨v, (resolve_child_ok hv).2⟩, rfl⟩
  · intro err h
    unfold ListFiles
    split
    · rename_i l e he
      rw [he] at h
      simp only [Option.some.injEq] at h
      rw [h]
    · rename_i l he
      rw [he] at h
      cases h

theorem C10_listFiles_immediate_children_witness :
    (∃ files, ListFiles sampleFS tmpDir = (files, none) ∧ files.Nodup ∧
        ∀ q, q ∈ files ↔ ∃ n v, q = filepathJoin tmpDir n ∧ resolve sampleFS q = .ok v) ∧
    ListFiles sampleFS aTxt = ([], some .ENOTDIR) :=
  ⟨(C10_listFiles_immediate_children sampleFS tmpDir).1 _ rfl,
   (C10_listFiles_immediate_children sampleFS aTxt).2 .ENOTDIR rfl⟩

theorem isRegular_iff (fs : FS) (q : PathName) :
    isRegular fs q = true ↔ ∃ a d, resolve fs q = .ok (.file a d) := by
  unfold isRegular
  split
  · rename_i a d h
    simp [h]
  · rename_i h
    constructor
    · intro h1
      cases h1
    · rintro ⟨a, d, h2⟩
      exact absurd h2 (h a d)

/-- The walk of the sample tree, evaluated. -/
theorem listFilesRecursive_treeFS :
    ListFilesRecursive treeFS tmpDir = some ([aTxt, bTxt], none) := by
  decide

/-- C7: on a directory, `ListFilesRecursive` returns no error and a list that
holds the path of every non-directory entry of the subtree exactly once and no
path of a directory; when the subtree holds one file at top level and one file
in a subdirectory and no other file, the list has exactly 2 paths. -/
theorem C7_listFilesRecursive_collects_files (fs : FS) (dir : PathName) (a : Attr)
    (hdir : resolve fs dir = .ok (.dir a)) :
    ∃ files, ListFilesRecursive fs dir = some (files, none) ∧ files.Nodup ∧
      (∀ q, q ∈ files ↔ (dir.isUnder q = true ∧ isRegular fs q = true)) ∧
      (∀ q ∈ files, ∀ b, resolve fs q ≠ .ok (.dir b)) ∧
      (∀ n1 sub n2,
        (∀ q, (dir.isUnder q = true ∧ isRegular fs q = true) ↔
          (q = filepathJoin dir n1 ∨ q = filepathJoin (filepathJoin dir sub) n2)) →
        files.length = 2) := by
  obtain ⟨L, hL, hnd, hmem⟩ := listFilesRecursive_collects fs dir _ hdir
  have hmem1 : ∀ q, q ∈ L ↔ (dir.isUnder q = true ∧ isRegular fs q = true) := by
    intro q
    rw [hmem, isRegular_iff]
    rfl
  refine ⟨L, hL, hnd, hmem1, ?_, ?_⟩
  · intro q hq b hb
    obtain ⟨-, a1, d1, h1⟩ := (hmem q).1 hq
    rw [h1] at hb
    cases hb
  · intro n1 sub n2 hset
    have hne : filepathJoin dir n1 ≠ filepathJoin (filepathJoin dir sub) n2 := by
      intro h
      simp only [filepathJoin, PathName.child.injEq] at h
      have := child_not_isUnder_parent dir sub
      rw [← h.1, isUnder_refl] at this
      cases this
    have hperm : L.Perm [filepathJoin dir n1, filepathJoin (filepathJoin dir sub) n2] := by
      rw [List.perm_ext_iff_of_nodup hnd (by simp [hne])]
      intro q
      rw [hmem1, hset]
      simp
    rw [hperm.length_eq]
    rfl

theorem C7_listFilesRecursive_collects_files_witness :
    resolve treeFS tmpDir = .ok (.dir ⟨0o755, 0, 0, 0⟩) ∧
    ∃ files, ListFilesRecursive treeFS tmpDir = some (files, none) ∧ files.Nodup ∧
      (∀ q, q ∈ files ↔ (tmpDir.isUnder q = true ∧ isRegular treeFS q = true)) ∧
      (∀ q ∈ files, ∀ b, resolve treeFS q ≠ .ok (.dir b)) ∧
      (∀ n1 sub n2,
        (∀ q, (tmpDir.isUnder q = true ∧ isRegular treeFS q = true) ↔
          (q = filepathJoin tmpDir n1 ∨ q = filepathJoin (filepathJoin tmpDir sub) n2)) →
        files.length = 2) :=
  ⟨rfl, C7_listFilesRecursive_collects_files treeFS tmpDir _ rfl⟩

/-! ## Claims on moving -/

/-- C6: when `MoveFile(src, dst)` returns no error for an existing file `src`
and a `dst` whose parent directory did not exist, the parent of `dst` and every
ancestor of it is a directory, `dst` is the file that was at `src`, content
included, and nothing exists at `src`. -/
theorem C6_moveFile_creates_parent_and_moves (fs fs1 : FS) (src dst : PathName)
    (a : Attr) (d : Bytes)
    (hsrc : resolve fs src = .ok (.file a d))
    (hpar : FileExists fs (filepathDir dst) = (false, none))
    (h : MoveFile fs src dst = (fs1, none)) :
    (∀ x, x.isUnder (filepathDir dst) = true → ∃ b, resolve fs1 x = .ok (.dir b)) ∧
    resolve fs1 dst = .ok (.file a d) ∧ readFile fs1 dst = some d ∧
    FileExists fs1 src = (false, none) := by
  have hne : src ≠ dst := by
    rintro rfl
    obtain ⟨q, n, rfl⟩ := resolve_file_not_root hsrc
    obtain ⟨⟨b, hq⟩, -⟩ := resolve_child_ok hsrc
    have := resolve_of_fileExists_false hpar
    simp only [filepathDir] at this
    rw [hq] at this
    cases this
  unfold MoveFile at h
  cases hm : osMkdirAll fs (filepathDir dst) 0o755 with
  | mk fs0 err0 =>
    obtain ⟨-, -, hdir⟩ := osMkdirAll_spec _ _ fs fs0 err0 hm
    have hsrc0 := osMkdirAll_keeps_file _ _ fs fs0 err0 hm hsrc
    cases err0 with
    | some e0 =>
      simp [hm] at h
    | none =>
      simp only [hm] at h
      obtain ⟨b, hb⟩ := hdir rfl
      obtain ⟨he, hp, hnd⟩ := osRename_file_ok fs0 fs1 src dst a d hsrc0 hne h
      obtain ⟨h1, h2, h3⟩ := rename_file_result fs0 fs1 src dst a d hsrc0 hne he hp hnd
      refine ⟨?_, h1, readFile_of_resolve h1, fileExists_of_enoent h2⟩
      intro x hx
      rcases resolve_ancestor hb hx with hx1 | ⟨u, hu⟩
      · rw [hx1]
        exact h3 _ b hb
      · exact h3 x u hu

theorem C6_moveFile_creates_parent_and_moves_witness :
    FileExists sampleFS (mkPath ["tmp", "new", "deep"]) = (false, none) ∧
    (∀ x, x.isUnder (filepathDir (mkPath ["tmp", "new", "deep", "moved.txt"])) = true →
      ∃ b, resolve (MoveFile sampleFS aTxt (mkPath ["tmp", "new", "deep", "moved.txt"])).1 x
        = .ok (.dir b)) ∧
    resolve (MoveFile sampleFS aTxt (mkPath ["tmp", "new", "deep", "moved.txt"])).1
      (mkPath ["tmp", "new", "deep", "moved.txt"]) = .ok (.file ⟨0o600, 1, 1, 0⟩ [104, 105]) ∧
    readFile (MoveFile sampleFS aTxt (mkPath ["tmp", "new", "deep", "moved.txt"])).1
      (mkPath ["tmp", "new", "deep", "moved.txt"]) = some [104, 105] ∧
    FileExists (MoveFile sampleFS aTxt (mkPath ["tmp", "new", "deep", "moved.txt"])).1 aTxt
      = (false, none) :=
  ⟨rfl, C6_moveFile_creates_parent_and_moves sampleFS _ aTxt
    (mkPath ["tmp", "new", "deep", "moved.txt"]) ⟨0o600, 1, 1, 0⟩ [104, 105] rfl rfl rfl⟩

/-! ## Claims on failing calls -/

/-- C3, as stated, fails: a failing `MoveFile` has created the missing
directories of the destination; a failing `AppendToFile` or
`CreateFileWithContent` has created the file that it could not write for lack
of space; a `CreateEmptyFile` that fails in closing has created the file; and
the directory in which an entry was created has a new modification time. -/
theorem C3_failure_changes_state :
    (MoveFile sampleFS (mkPath ["tmp", "missing"]) (mkPath ["tmp", "x", "y", "b.txt"])).2
        = some .ENOENT ∧
    (MoveFile sampleFS (mkPath ["tmp", "missing"]) (mkPath ["tmp", "x", "y", "b.txt"])).1
        ≠ sampleFS ∧
    FileExists sampleFS (mkPath ["tmp", "x", "y"]) = (false, none) ∧
    FileExists (MoveFile sampleFS (mkPath ["tmp", "missing"])
        (mkPath ["tmp", "x", "y", "b.txt"])).1 (mkPath ["tmp", "x", "y"]) = (true, none) ∧
    (AppendToFile fullFS (mkPath ["tmp", "new"]) [1, 2, 3]).2 = some .ENOSPC ∧
    FileExists fullFS (mkPath ["tmp", "new"]) = (false, none) ∧
    FileExists (AppendToFile fullFS (mkPath ["tmp", "new"]) [1, 2, 3]).1 (mkPath ["tmp", "new"])
        = (true, none) ∧
    (CreateFileWithContent fullFS (mkPath ["tmp", "new"]) [1, 2, 3]).2 = some .ENOSPC ∧
    FileExists (CreateFileWithContent fullFS (mkPath ["tmp", "new"]) [1, 2, 3]).1
        (mkPath ["tmp", "new"]) = (true, none) ∧
    (CreateEmptyFile closeFailFS (mkPath ["tmp", "new"])).2 = some .EDQUOT ∧
    FileExists closeFailFS (mkPath ["tmp", "new"]) = (false, none) ∧
    FileExists (CreateEmptyFile closeFailFS (mkPath ["tmp", "new"])).1 (mkPath ["tmp", "new"])
        = (true, none) ∧
    GetFileModTime sampleFS tmpDir = (0, none) ∧
    GetFileModTime (MoveFile sampleFS (mkPath ["tmp", "missing"])
        (mkPath ["tmp", "x", "y", "b.txt"])).1 tmpDir = (7, none) ∧
    GetFileModTime (AppendToFile fullFS (mkPath ["tmp", "new"]) [1, 2, 3]).1 tmpDir
        = (7, none) := by
  decide

/-- C3, amended: an error from `ClearFile`, `DeleteFile`, `RenameFile`,
`SetFilePermissions` or `SetFileOwnerGroup` leaves the state as it was.  A
failing `MoveFile` leaves the state that `os.MkdirAll` of the parent of the
destination produced: every entry that existed is as it was, up to the
modification time of directories, and what is new are directories on the way
to that parent.  A failing `AppendToFile`, `CreateFileWithContent` or
`CreateEmptyFile` either leaves the state as it was or leaves at its path a
file that holds, respectively, the old content followed by a part of the new
content that is not all of it, a part of the new content, or nothing; a file
that was at the path keeps its mode, owner and group, and every path outside
the subtree of the path is as it was, up to the modification time of the
directory holding the path. -/
theorem C3_failure_effects (fs fs1 : FS) (e : GoError) :
    (∀ p, ClearFile fs p = (fs1, some e) → fs1 = fs) ∧
    (∀ p, DeleteFile fs p = (fs1, some e) → fs1 = fs) ∧
    (∀ p q, RenameFile fs p q = (fs1, some e) → fs1 = fs) ∧
    (∀ p mode, SetFilePermissions fs p mode = (fs1, some e) → fs1 = fs) ∧
    (∀ p uid gid, SetFileOwnerGroup fs p uid gid = (fs1, some e) → fs1 = fs) ∧
    (∀ src dst, MoveFile fs src dst = (fs1, some e) →
      fs1 = (osMkdirAll fs (filepathDir dst) 0o755).1 ∧
      (∀ x w, resolve fs x = .ok w → ∃ w1, resolve fs1 x = .ok w1 ∧ w1.forget = w.forget) ∧
      (∀ x w1, resolve fs1 x = .ok w1 →
        (∃ w, resolve fs x = .ok w) ∨
        (w1.isDir = true ∧ x.isUnder (filepathDir dst) = true))) ∧
    (∀ p c, AppendToFile fs p c = (fs1, some e) →
      (fs1 = fs ∨ ∃ k, k < c.length ∧
        readFile fs1 p = some ((readFile fs p).getD [] ++ c.take k)) ∧
      KeepsFileAttr fs fs1 p ∧ OutsideUnchanged fs fs1 p) ∧
    (∀ p c, CreateFileWithContent fs p c = (fs1, some e) →
      (fs1 = fs ∨ ∃ k, k ≤ c.length ∧ readFile fs1 p = some (c.take k)) ∧
      KeepsFileAttr fs fs1 p ∧ OutsideUnchanged fs fs1 p) ∧
    (∀ p, CreateEmptyFile fs p = (fs1, some e) →
      (fs1 = fs ∨ readFile fs1 p = some []) ∧
      KeepsFileAttr fs fs1 p ∧ OutsideUnchanged fs fs1 p) := by
  refine ⟨?_, ?_, ?_, ?_, ?_, ?_, ?_, ?_, ?_⟩
  · intro p h
    unfold ClearFile osTruncate0 at h
    split at h <;> simp at h <;> exact h.1.symm
  · intro p h
    exact osRemove_fail fs fs1 p e h
  · intro p q h
    exact osRename_fail fs fs1 p q e h
  · intro p mode h
    unfold SetFilePermissions osChmod at h
    split at h <;> simp at h
    exact h.1.symm
  · intro p uid gid h
    unfold SetFileOwnerGroup osChown at h
    split at h <;> simp at h
    exact h.1.symm
  · intro src dst h
    unfold MoveFile at h
    cases hm : osMkdirAll fs (filepathDir dst) 0o755 with
    | mk fs0 err0 =>
      obtain ⟨hP1, hP2, -⟩ := osMkdirAll_spec _ _ fs fs0 err0 hm
      cases err0 with
      | some e0 =>
        simp only [hm, Prod.mk.injEq] at h
        rw [← h.1]
        exact ⟨rfl, hP1, hP2⟩
      | none =>
        simp only [hm] at h
        have := osRename_fail fs0 fs1 src dst e h
        rw [this]
        exact ⟨rfl, hP1, hP2⟩
  · intro p c h
    exact appendToFile_fail fs fs1 p c e h
  · intro p c h
    exact createFileWithContent_fail fs fs1 p c e h
  · intro p h
    exact createEmptyFile_fail fs fs1 p e h

theorem C3_failure_effects_witness :
    (ClearFile sampleFS (mkPath ["tmp", "missing"])).2 = some .ENOENT ∧
    (ClearFile sampleFS (mkPath ["tmp", "missing"])).1 = sampleFS ∧
    (DeleteFile sampleFS (mkPath ["tmp", "missing"])).1 = sampleFS ∧
    ((MoveFile sampleFS (mkPath ["tmp", "missing"]) (mkPath ["tmp", "x", "y", "b.txt"])).1
        = (osMkdirAll sampleFS (filepathDir (mkPath ["tmp", "x", "y", "b.txt"])) 0o755).1 ∧
      (∀ x w, resolve sampleFS x = .ok w →
        ∃ w1, resolve (MoveFile sampleFS (mkPath ["tmp", "missing"])
          (mkPath ["tmp", "x", "y", "b.txt"])).1 x = .ok w1 ∧ w1.forget = w.forget) ∧
      (∀ x w1, resolve (MoveFile sampleFS (mkPath ["tmp", "missing"])
          (mkPath ["tmp", "x", "y", "b.txt"])).1 x = .ok w1 →
        (∃ w, resolve sampleFS x = .ok w) ∨
        (w1.isDir = true ∧
          x.isUnder (filepathDir (mkPath ["tmp", "x", "y", "b.txt"])) = true))) ∧
    ((AppendToFile fullFS (mkPath ["tmp", "new"]) [1, 2, 3]).1 = fullFS ∨
      ∃ k, k < [(1 : Fin 256), 2, 3].length ∧
        readFile (AppendToFile fullFS (mkPath ["tmp", "new"]) [1, 2, 3]).1 (mkPath ["tmp", "new"])
          = some ((readFile fullFS (mkPath ["tmp", "new"])).getD [] ++ [(1 : Fin 256), 2, 3].take k)) ∧
    ((CreateEmptyFile closeFailFS (mkPath ["tmp", "new"])).1 = closeFailFS ∨
      readFile (CreateEmptyFile closeFailFS (mkPath ["tmp", "new"])).1 (mkPath ["tmp", "new"])
        = some []) :=
  ⟨rfl,
   (C3_failure_effects sampleFS _ .ENOENT).1 (mkPath ["tmp", "missing"]) rfl,
   (C3_failure_effects sampleFS _ .ENOENT).2.1 (mkPath ["tmp", "missing"]) rfl,
   (C3_failure_effects sampleFS _ .ENOENT).2.2.2.2.2.1 (mkPath ["tmp", "missing"])
     (mkPath ["tmp", "x", "y", "b.txt"]) rfl,
   ((C3_failure_effects fullFS _ .ENOSPC).2.2.2.2.2.2.1 (mkPath ["tmp", "new"]) [1, 2, 3] rfl).1,
   ((C3_failure_effects closeFailFS _ .EDQUOT).2.2.2.2.2.2.2.2 (mkPath ["tmp", "new"]) rfl).1⟩

/-! ## Claims on copying -/

/-- C2 fails when the destination is the source: `CopyFile` of the two-byte
file `/tmp/a.txt` onto itself returns no error and leaves the file empty, the
permission bits unchanged. -/
theorem C2_copyFile_onto_itself_empties :
    readFile sampleFS aTxt = some [104, 105] ∧
    (CopyFile sampleFS aTxt aTxt).2 = none ∧
    readFile (CopyFile sampleFS aTxt aTxt).1 aTxt = some [] ∧
    (GetFileInfo sampleFS aTxt).1.map (fun i => (i.Size, i.Mode)) = some (2, 0o600) ∧
    (GetFileInfo (CopyFile sampleFS aTxt aTxt).1 aTxt).1.map (fun i => (i.Size, i.Mode))
      = some (0, 0o600) := by
  decide

end opsfile
